import Mathlib

/-!
# ring_simple: a verification development

Shallow embedding of `src/core/dev/ring_simple.h` (class `ring_simple`):
the socketxtreme event-completion queue (`put_ec`, `del_ec`, `get_ec`,
`get_comp`), the TLS / NVMe offload entry points, the capability queries,
the link-layer address cache and the transmit buffer accounting.

Pointers are modelled as addresses into explicit stores, calls into the
collaborators (`qp_mgr`, `cq_mgr`, the dpcp adapter) as recorded events whose
results are parameters of the embedded method.
-/

namespace ring_simple

/-! ## Event-completion queue: memory model -/

/-- Address of a `struct list_head`: either the ring's own
`m_socketxtreme.ec_list` or the `list` member of the `ring_ec` number `i`. -/
inductive Node where
  | head : Node
  | ec (i : Nat) : Node
deriving DecidableEq, Repr

/-- The `struct list_head` of the intrusive list: two links. -/
structure list_head where
  next : Node
  prev : Node
deriving DecidableEq, Repr

/-- The `packet` member of a completion, as read by the tests
(`packet.num_bufs`, `packet.total_len`, `packet.buff_lst`). -/
structure xlio_socketxtreme_packet_desc_t where
  num_bufs : Nat
  total_len : Nat
  buff_lst : Option Nat
deriving DecidableEq, Repr

/-- The `struct xlio_socketxtreme_completion_t` record, with the members the
repository reads (`events`, `user_data`, `listen_fd`, `src`, `packet`). -/
structure xlio_socketxtreme_completion_t where
  events : Nat
  user_data : Nat
  listen_fd : Int
  src : Nat
  packet : xlio_socketxtreme_packet_desc_t
deriving DecidableEq, Repr

/-- The all-zero completion (what `memset(&completion, 0, ...)` leaves). -/
def zero_completion : xlio_socketxtreme_completion_t :=
  { events := 0, user_data := 0, listen_fd := 0, src := 0,
    packet := { num_bufs := 0, total_len := 0, buff_lst := none } }

/-- The memory the queue operations work on: every `list_head` (the ring's
`m_socketxtreme.ec_list` and the link of each `ring_ec`), the payload members
of each `ring_ec`, and the fast-path pointer `m_socketxtreme.completion`. -/
structure ec_state where
  list : Node → list_head
  completion : Nat → xlio_socketxtreme_completion_t
  last_buff_lst : Nat → Option Nat
  slot : Option Nat

/-- Store `v` into `p->next`. -/
def set_next (m : Node → list_head) (p v : Node) : Node → list_head :=
  fun n => if n = p then { next := v, prev := (m p).prev } else m n

/-- Store `v` into `p->prev`. -/
def set_prev (m : Node → list_head) (p v : Node) : Node → list_head :=
  fun n => if n = p then { next := (m p).next, prev := v } else m n

/-- Modelled from the spec: `INIT_LIST_HEAD` of the repository's list header is
not under src/; the spec's "link reset" is the node pointing at itself in both
directions, the unlinked state of a circular intrusive list. -/
def INIT_LIST_HEAD (m : Node → list_head) (p : Node) : Node → list_head :=
  set_prev (set_next m p p) p p

/-- Modelled from the spec: `__list_add` of the list header is not under src/;
it links `new` between the adjacent nodes `prev` and `next`. -/
def __list_add (m : Node → list_head) (new prev next : Node) : Node → list_head :=
  set_next (set_prev (set_next (set_prev m next new) new next) new prev) prev new

/-- Modelled from the spec: `list_add_tail` of the list header is not under
src/; the spec says records are "appended at the tail", i.e. linked between
the current last node `head->prev` and `head`. -/
def list_add_tail (m : Node → list_head) (new hd : Node) : Node → list_head :=
  __list_add m new (m hd).prev hd

/-- Modelled from the spec: `__list_del` of the list header is not under src/;
it makes the two neighbours `prev` and `next` point at each other. -/
def __list_del (m : Node → list_head) (prev next : Node) : Node → list_head :=
  set_next (set_prev m next prev) prev next

/-- Modelled from the spec: `list_del_init` of the list header is not under
src/; the entry is unlinked from its neighbours and its link is reset. -/
def list_del_init (m : Node → list_head) (entry : Node) : Node → list_head :=
  INIT_LIST_HEAD (__list_del m (m entry).prev (m entry).next) entry

/-- Modelled from the spec: `list_empty` of the list header is not under src/;
a circular list is empty when the head points at itself. -/
def list_empty (m : Node → list_head) (hd : Node) : Bool :=
  decide ((m hd).next = hd)

/-- Modelled from the spec: `ring_ec::clear` is not under src/; the spec says
"an entry is cleared (fields zeroed, link reset)". -/
def ring_ec_clear (s : ec_state) (ec : Nat) : ec_state :=
  { s with
    list := INIT_LIST_HEAD s.list (Node.ec ec)
    completion := fun i => if i = ec then zero_completion else s.completion i
    last_buff_lst := fun i => if i = ec then none else s.last_buff_lst i }

/-- The method `ring_simple::put_ec`: `list_add_tail(&ec->list, &m_socketxtreme.ec_list)`
under the spin lock. -/
def put_ec (s : ec_state) (ec : Nat) : ec_state :=
  { s with list := list_add_tail s.list (Node.ec ec) Node.head }

/-- The method `ring_simple::del_ec`: `list_del_init(&ec->list); ec->clear();`
under the spin lock. -/
def del_ec (s : ec_state) (ec : Nat) : ec_state :=
  ring_ec_clear { s with list := list_del_init s.list (Node.ec ec) } ec

/-- Modelled from the spec: `list_entry` of the list header is not under src/;
it maps the address of a `list` member back to the `ring_ec` that contains it
(`Node.ec i` to entry `i`); the list head is inside no `ring_ec`. -/
def list_entry : Node → Option Nat
  | Node.head => none
  | Node.ec i => some i

/-- The method `ring_simple::get_ec`: `ec` starts as NULL; when
`!list_empty(&m_socketxtreme.ec_list)` the entry holding `ec_list.next` is
taken with `list_entry` and unlinked with `list_del_init(&ec->list)`; `ec` is
returned. The payload members of the entry are not touched. -/
def get_ec (s : ec_state) : Option Nat × ec_state :=
  if !list_empty s.list Node.head then
    match list_entry (s.list Node.head).next with
    | some i => (some i, { s with list := list_del_init s.list (Node.ec i) })
    | none => (none, s)
  else (none, s)

/-- The entries met when walking `ec_list` from `start` along `next` until the
head is met again (`list_for_each`), at most `fuel` of them. -/
def walk (m : Node → list_head) : Nat → Node → List Nat
  | 0, _ => []
  | fuel + 1, start =>
    match (m start).next with
    | Node.head => []
    | Node.ec i => i :: walk m fuel (Node.ec i)

/-- The content of the queued lane, read by walking `ec_list`. -/
def ec_list_entries (fuel : Nat) (s : ec_state) : List Nat :=
  walk s.list fuel Node.head

/-- Successive `get_ec` calls, at most `fuel` of them, stopping at the first
NULL: the entries returned, in order, and the final state. -/
def drain : Nat → ec_state → List Nat × ec_state
  | 0, s => ([], s)
  | fuel + 1, s =>
    match get_ec s with
    | (none, s1) => ([], s1)
    | (some i, s1) => (i :: (drain fuel s1).1, (drain fuel s1).2)

/-- The chain of links from node `a` through the entries `l` back to the head:
each node's `next` is the following node and that node's `prev` points back. -/
def Chain (m : Node → list_head) : Node → List Nat → Prop
  | a, [] => (m a).next = Node.head ∧ (m Node.head).prev = a
  | a, x :: xs => (m a).next = Node.ec x ∧ (m (Node.ec x)).prev = a ∧ Chain m (Node.ec x) xs

/-- The state `s` holds the queue `l`: `ec_list` is a well-formed circular list
through exactly the entries of `l`, no entry twice, and every other entry is
unlinked (its link points at itself). -/
def Queue (s : ec_state) (l : List Nat) : Prop :=
  Chain s.list Node.head l ∧ l.Nodup ∧
    ∀ e, e ∉ l → s.list (Node.ec e) = { next := Node.ec e, prev := Node.ec e }

/-- An entry whose link is in the unlinked state (`list_empty(&ec->list)`). -/
def unlinked (s : ec_state) (e : Nat) : Prop :=
  s.list (Node.ec e) = { next := Node.ec e, prev := Node.ec e }

instance (s : ec_state) (e : Nat) : Decidable (unlinked s e) :=
  inferInstanceAs (Decidable (s.list (Node.ec e) = { next := Node.ec e, prev := Node.ec e }))

/-- The empty queue with every entry unlinked and zeroed, the fast path off. -/
def ec_init : ec_state :=
  { list := fun n => { next := n, prev := n }
    completion := fun _ => zero_completion
    last_buff_lst := fun _ => none
    slot := none }

/-- One call on the queue. -/
inductive ec_op where
  | put (e : Nat) : ec_op
  | del (e : Nat) : ec_op
  | get : ec_op
deriving DecidableEq, Repr

/-- The state after one call. -/
def ec_step (s : ec_state) : ec_op → ec_state
  | ec_op.put e => put_ec s e
  | ec_op.del e => del_ec s e
  | ec_op.get => (get_ec s).2

/-- The state after a sequence of calls. -/
def ec_run (s : ec_state) : List ec_op → ec_state
  | [] => s
  | o :: os => ec_run (ec_step s o) os

/-- Every `put_ec` of the sequence is made on an entry that is unlinked at the
moment of the call (the caller's discipline: one record per socket). -/
def puts_unlinked (s : ec_state) : List ec_op → Bool
  | [] => true
  | ec_op.put e :: os => decide (unlinked s e) && puts_unlinked (put_ec s e) os
  | o :: os => puts_unlinked (ec_step s o) os

/-! ## Offload entry points and capability queries -/

/-- A call into the queue pair `m_p_qp_mgr`, with the arguments handed over. -/
inductive qp_call where
  | tls_context_setup_tx (info : Nat) : qp_call
  | tls_create_tir (cached : Bool) : qp_call
  | tls_context_setup_rx (tir info next_record_tcp_sn callback callback_arg : Nat) : qp_call
  | tls_context_resync_tx (info tis : Nat) (skip_static : Bool) : qp_call
  | tls_resync_rx (tir info hw_resync_tcp_sn : Nat) : qp_call
  | tls_get_progress_params_rx (tir buf lkey : Nat) : qp_call
  | tls_release_tis (tis : Nat) : qp_call
  | tls_release_tir (tir : Nat) : qp_call
  | tls_tx_post_dump_wqe (tis addr len lkey : Nat) (first : Bool) : qp_call
  | create_tis (flags : Nat) : qp_call
  | nvme_set_static_context (tis config : Nat) : qp_call
  | nvme_set_progress_context (tis tcp_seqno : Nat) : qp_call
  | post_nop_fence : qp_call
  | post_dump_wqe (tis addr len lkey : Nat) (is_first : Bool) : qp_call
deriving DecidableEq, Repr

/-- What a ring method does to its collaborators, in program order:
taking and dropping `m_lock_ring_tx` (the `std::lock_guard`), a call into the
queue pair, one `m_p_cq_mgr_tx->poll_and_process_element_tx(&dummy_poll_sn)`,
and the dpcp adapter's `get_hca_capabilities`. -/
inductive Ev where
  | lock_ring_tx : Ev
  | unlock_ring_tx : Ev
  | qp (c : qp_call) : Ev
  | cq_tx_poll : Ev
  | get_hca_capabilities : Ev
deriving DecidableEq, Repr

/-- The member `m_tls` of the ring: the three capability flags. -/
structure m_tls_t where
  tls_tx : Bool
  tls_rx : Bool
  tls_synchronize_dek : Bool
deriving DecidableEq, Repr

/-- The members of `ring_simple` that the offload entry points and the
capability queries read or write. The two counters live in `*m_p_ring_stat`,
whose declaration is not under src/; they are kept as naturals. -/
structure Ring where
  m_tls : m_tls_t
  m_tx_lkey : Nat
  n_tx_tls_contexts : Nat
  n_rx_tls_contexts : Nat
deriving DecidableEq, Repr

/-- Outcome of one ring method: the value returned, the ring afterwards and
the calls made, in order. -/
structure Outcome (α : Type) where
  ret : α
  ring : Ring
  trace : List Ev

/-- The query `tls_tx_supported`: `return m_tls.tls_tx;`. -/
def tls_tx_supported (r : Ring) : Outcome Bool :=
  { ret := r.m_tls.tls_tx, ring := r, trace := [] }

/-- The query `tls_rx_supported`: `return m_tls.tls_rx;`. -/
def tls_rx_supported (r : Ring) : Outcome Bool :=
  { ret := r.m_tls.tls_rx, ring := r, trace := [] }

/-- The query `tls_sync_dek_supported`: `return m_tls.tls_synchronize_dek;`. -/
def tls_sync_dek_supported (r : Ring) : Outcome Bool :=
  { ret := r.m_tls.tls_synchronize_dek, ring := r, trace := [] }

/-- The method `tls_context_setup_tx`; `qp_tis` is what
`m_p_qp_mgr->tls_context_setup_tx(info)` returns (`none` for NULL). -/
def tls_context_setup_tx (r : Ring) (info : Nat) (qp_tis : Option Nat) : Outcome (Option Nat) :=
  { ret := qp_tis
    ring := match qp_tis with
      | some _ => { r with n_tx_tls_contexts := r.n_tx_tls_contexts + 1 }
      | none => r
    trace := [Ev.lock_ring_tx, Ev.qp (qp_call.tls_context_setup_tx info), Ev.cq_tx_poll,
      Ev.unlock_ring_tx] }

/-- The method `tls_create_tir`; `qp_tir` is what the queue pair returns. -/
def tls_create_tir (r : Ring) (cached : Bool) (qp_tir : Option Nat) : Outcome (Option Nat) :=
  { ret := qp_tir, ring := r
    trace := [Ev.lock_ring_tx, Ev.qp (qp_call.tls_create_tir cached), Ev.unlock_ring_tx] }

/-- The method `tls_context_setup_rx`; `qp_rc` is the queue pair's return code. -/
def tls_context_setup_rx (r : Ring) (tir info next_record_tcp_sn callback callback_arg : Nat)
    (qp_rc : Int) : Outcome Int :=
  { ret := qp_rc
    ring := if qp_rc = 0 then { r with n_rx_tls_contexts := r.n_rx_tls_contexts + 1 } else r
    trace := [Ev.lock_ring_tx,
      Ev.qp (qp_call.tls_context_setup_rx tir info next_record_tcp_sn callback callback_arg),
      Ev.cq_tx_poll, Ev.unlock_ring_tx] }

/-- The method `tls_context_resync_tx`. -/
def tls_context_resync_tx (r : Ring) (info tis : Nat) (skip_static : Bool) : Outcome Unit :=
  { ret := (), ring := r
    trace := [Ev.lock_ring_tx, Ev.qp (qp_call.tls_context_resync_tx info tis skip_static),
      Ev.cq_tx_poll, Ev.unlock_ring_tx] }

/-- The method `tls_resync_rx`: the queue pair call only, no poll. -/
def tls_resync_rx (r : Ring) (tir info hw_resync_tcp_sn : Nat) : Outcome Unit :=
  { ret := (), ring := r
    trace := [Ev.lock_ring_tx, Ev.qp (qp_call.tls_resync_rx tir info hw_resync_tcp_sn),
      Ev.unlock_ring_tx] }

/-- The method `tls_get_progress_params_rx`; `LKEY_USE_DEFAULT` is a constant
whose definition is not under src/ and is taken as a parameter. -/
def tls_get_progress_params_rx (LKEY_USE_DEFAULT : Nat) (r : Ring) (tir buf lkey : Nat) :
    Outcome Unit :=
  { ret := (), ring := r
    trace := [Ev.lock_ring_tx,
      Ev.qp (qp_call.tls_get_progress_params_rx tir buf
        (if lkey = LKEY_USE_DEFAULT then r.m_tx_lkey else lkey)),
      Ev.cq_tx_poll, Ev.unlock_ring_tx] }

/-- The method `tls_release_tis`: the queue pair call only, no poll. -/
def tls_release_tis (r : Ring) (tis : Nat) : Outcome Unit :=
  { ret := (), ring := r
    trace := [Ev.lock_ring_tx, Ev.qp (qp_call.tls_release_tis tis), Ev.unlock_ring_tx] }

/-- The method `tls_release_tir`: the queue pair call only, no poll. -/
def tls_release_tir (r : Ring) (tir : Nat) : Outcome Unit :=
  { ret := (), ring := r
    trace := [Ev.lock_ring_tx, Ev.qp (qp_call.tls_release_tir tir), Ev.unlock_ring_tx] }

/-- The method `tls_tx_post_dump_wqe`. -/
def tls_tx_post_dump_wqe (LKEY_USE_DEFAULT : Nat) (r : Ring) (tis addr len lkey : Nat)
    (first : Bool) : Outcome Unit :=
  { ret := (), ring := r
    trace := [Ev.lock_ring_tx,
      Ev.qp (qp_call.tls_tx_post_dump_wqe tis addr len
        (if lkey = LKEY_USE_DEFAULT then r.m_tx_lkey else lkey) first),
      Ev.unlock_ring_tx] }

/-- The method `create_tis`; `qp_tis` is what the queue pair returns. -/
def create_tis (r : Ring) (flags : Nat) (qp_tis : Option Nat) : Outcome (Option Nat) :=
  { ret := qp_tis, ring := r
    trace := [Ev.lock_ring_tx, Ev.qp (qp_call.create_tis flags), Ev.unlock_ring_tx] }

/-- The method `nvme_set_static_context`: the queue pair call only, no poll. -/
def nvme_set_static_context (r : Ring) (tis config : Nat) : Outcome Unit :=
  { ret := (), ring := r
    trace := [Ev.lock_ring_tx, Ev.qp (qp_call.nvme_set_static_context tis config),
      Ev.unlock_ring_tx] }

/-- The method `nvme_set_progress_context`: the queue pair call only, no poll. -/
def nvme_set_progress_context (r : Ring) (tis tcp_seqno : Nat) : Outcome Unit :=
  { ret := (), ring := r
    trace := [Ev.lock_ring_tx, Ev.qp (qp_call.nvme_set_progress_context tis tcp_seqno),
      Ev.unlock_ring_tx] }

/-- The method `post_nop_fence`. -/
def post_nop_fence (r : Ring) : Outcome Unit :=
  { ret := (), ring := r
    trace := [Ev.lock_ring_tx, Ev.qp qp_call.post_nop_fence, Ev.unlock_ring_tx] }

/-- The method `post_dump_wqe`: the key is forwarded as given. -/
def post_dump_wqe (r : Ring) (tis addr len lkey : Nat) (is_first : Bool) : Outcome Unit :=
  { ret := (), ring := r
    trace := [Ev.lock_ring_tx, Ev.qp (qp_call.post_dump_wqe tis addr len lkey is_first),
      Ev.unlock_ring_tx] }

/-- The `nvmeotcp_caps` part of `dpcp::adapter_hca_capabilities`. -/
structure nvmeotcp_caps_t where
  enabled : Bool
  zerocopy : Bool
  crc_rx : Bool
  crc_tx : Bool
deriving DecidableEq, Repr

/-- What the hardware capability interface answers at the moment of a query:
`m_p_ib_ctx->get_dpcp_adapter()` (`none` for nullptr) and, for an adapter,
whether `get_hca_capabilities(caps)` returned `DPCP_OK` and the caps it filled. -/
structure hca_report where
  dpcp_ok : Bool
  nvmeotcp_caps : nvmeotcp_caps_t
deriving DecidableEq, Repr

/-- A capability bit as the integer factor of `NVME_x * caps.nvmeotcp_caps.x`. -/
def bit (b : Bool) : Nat := if b then 1 else 0

/-- The method `get_supported_nvme_feature_mask`; the three flag constants
`NVME_CRC_TX`, `NVME_CRC_RX`, `NVME_ZEROCOPY` are not defined under src/ and
are parameters. `adapter` is the answer of the hardware at this call. Because
of the short-circuit `||`, `get_hca_capabilities` is called exactly when the
adapter is not null. -/
def get_supported_nvme_feature_mask (NVME_CRC_TX NVME_CRC_RX NVME_ZEROCOPY : Nat)
    (r : Ring) (adapter : Option hca_report) : Outcome Nat :=
  match adapter with
  | none => { ret := 0, ring := r, trace := [] }
  | some rep =>
    { ret :=
        if !rep.dpcp_ok || !rep.nvmeotcp_caps.enabled then 0
        else (NVME_CRC_TX * bit rep.nvmeotcp_caps.crc_tx) |||
          (NVME_CRC_RX * bit rep.nvmeotcp_caps.crc_rx) |||
          (NVME_ZEROCOPY * bit rep.nvmeotcp_caps.zerocopy)
      ring := r
      trace := [Ev.get_hca_capabilities] }

/-- The number of transmit completion queue polls in a trace. -/
def polls (t : List Ev) : Nat := t.count Ev.cq_tx_poll

/-- The entry points that create, mutate or release an offload context or
post work for one, each with its arguments and with the answer of the queue
pair where the method returns one. -/
inductive offload_op where
  | tls_context_setup_tx (info : Nat) (qp_tis : Option Nat) : offload_op
  | tls_create_tir (cached : Bool) (qp_tir : Option Nat) : offload_op
  | tls_context_setup_rx (tir info next_record_tcp_sn callback callback_arg : Nat)
      (qp_rc : Int) : offload_op
  | tls_context_resync_tx (info tis : Nat) (skip_static : Bool) : offload_op
  | tls_resync_rx (tir info hw_resync_tcp_sn : Nat) : offload_op
  | tls_get_progress_params_rx (tir buf lkey : Nat) : offload_op
  | tls_release_tis (tis : Nat) : offload_op
  | tls_release_tir (tir : Nat) : offload_op
  | tls_tx_post_dump_wqe (tis addr len lkey : Nat) (first : Bool) : offload_op
  | create_tis (flags : Nat) (qp_tis : Option Nat) : offload_op
  | nvme_set_static_context (tis config : Nat) : offload_op
  | nvme_set_progress_context (tis tcp_seqno : Nat) : offload_op
  | post_dump_wqe (tis addr len lkey : Nat) (is_first : Bool) : offload_op

/-- The trace and the ring left by one entry point. -/
def offload_run (K : Nat) (r : Ring) : offload_op → Ring × List Ev
  | offload_op.tls_context_setup_tx info q =>
    ((tls_context_setup_tx r info q).ring, (tls_context_setup_tx r info q).trace)
  | offload_op.tls_create_tir c q =>
    ((tls_create_tir r c q).ring, (tls_create_tir r c q).trace)
  | offload_op.tls_context_setup_rx t i n cb a q =>
    ((tls_context_setup_rx r t i n cb a q).ring, (tls_context_setup_rx r t i n cb a q).trace)
  | offload_op.tls_context_resync_tx i t sk =>
    ((tls_context_resync_tx r i t sk).ring, (tls_context_resync_tx r i t sk).trace)
  | offload_op.tls_resync_rx t i h =>
    ((tls_resync_rx r t i h).ring, (tls_resync_rx r t i h).trace)
  | offload_op.tls_get_progress_params_rx t b l =>
    ((tls_get_progress_params_rx K r t b l).ring, (tls_get_progress_params_rx K r t b l).trace)
  | offload_op.tls_release_tis t => ((tls_release_tis r t).ring, (tls_release_tis r t).trace)
  | offload_op.tls_release_tir t => ((tls_release_tir r t).ring, (tls_release_tir r t).trace)
  | offload_op.tls_tx_post_dump_wqe t a n l f =>
    ((tls_tx_post_dump_wqe K r t a n l f).ring, (tls_tx_post_dump_wqe K r t a n l f).trace)
  | offload_op.create_tis f q => ((create_tis r f q).ring, (create_tis r f q).trace)
  | offload_op.nvme_set_static_context t c =>
    ((nvme_set_static_context r t c).ring, (nvme_set_static_context r t c).trace)
  | offload_op.nvme_set_progress_context t n =>
    ((nvme_set_progress_context r t n).ring, (nvme_set_progress_context r t n).trace)
  | offload_op.post_dump_wqe t a n l f =>
    ((post_dump_wqe r t a n l f).ring, (post_dump_wqe r t a n l f).trace)

/-! ## The transmit-path lock under concurrent callers -/

/-- The effect of one event of thread `t` on the owner of `m_lock_ring_tx`:
the lock is taken only when free and dropped only by its owner; `none` when
the event cannot happen in that lock state. -/
def lock_step (h : Option Nat) (t : Nat) : Ev → Option (Option Nat)
  | Ev.lock_ring_tx => if h = none then some (some t) else none
  | Ev.unlock_ring_tx => if h = some t then some none else none
  | _ => some h

/-- The owner of `m_lock_ring_tx` after an interleaving of the threads'
events, starting from owner `h`; `none` when the interleaving breaks the
mutual exclusion of the lock. -/
def holder : Option Nat → List (Nat × Ev) → Option (Option Nat)
  | h, [] => some h
  | h, (t, e) :: rest =>
    match lock_step h t e with
    | none => none
    | some h1 => holder h1 rest

/-- Whether a thread is between taking and dropping the lock after its own
events `l`, given where it stood before. -/
def inside : Bool → List Ev → Bool
  | b, [] => b
  | _, Ev.lock_ring_tx :: l => inside true l
  | _, Ev.unlock_ring_tx :: l => inside false l
  | b, _ :: l => inside b l

/-- The events of thread `t` in an interleaving, in order. -/
def proj (t : Nat) : List (Nat × Ev) → List Ev
  | [] => []
  | (u, e) :: rest => if u = t then e :: proj t rest else proj t rest

/-- The events of a thread that makes the given entry-point calls one after
the other, each on the ring as it is at that call. -/
def thread_trace (K : Nat) : List (Ring × offload_op) → List Ev
  | [] => []
  | (r, op) :: rest => (offload_run K r op).2 ++ thread_trace K rest

/-- A trace that takes the lock first, drops it last and neither takes nor
drops it in between. -/
def Bracketed (t : List Ev) : Prop :=
  ∃ mid, t = Ev.lock_ring_tx :: (mid ++ [Ev.unlock_ring_tx]) ∧
    ∀ e ∈ mid, e ≠ Ev.lock_ring_tx ∧ e ≠ Ev.unlock_ring_tx

/-- The ring used in the examples: all three TLS flags set, key 5. -/
def ring0 : Ring :=
  { m_tls := { tls_tx := true, tls_rx := true, tls_synchronize_dek := true },
    m_tx_lkey := 5, n_tx_tls_contexts := 0, n_rx_tls_contexts := 0 }

/-- Two callers: thread 0 sets up a transmit context, thread 1 posts a dump
work request for it; every other thread makes no call. -/
def prog0 (t : Nat) : List (Ring × offload_op) :=
  match t with
  | 0 => [(ring0, offload_op.tls_context_setup_tx 1 (some 9))]
  | 1 => [(ring0, offload_op.post_dump_wqe 9 100 64 5 true)]
  | _ => []

/-- An interleaving of the two callers of `prog0`: thread 0 runs its call,
then thread 1 runs its own. -/
def sched0 : List (Nat × Ev) :=
  [(0, Ev.lock_ring_tx), (0, Ev.qp (qp_call.tls_context_setup_tx 1)), (0, Ev.cq_tx_poll),
   (0, Ev.unlock_ring_tx), (1, Ev.lock_ring_tx),
   (1, Ev.qp (qp_call.post_dump_wqe 9 100 64 5 true)), (1, Ev.unlock_ring_tx)]

/-! ## Link-layer address cache -/

/-- The memory behind `m_p_l2_addr`: the live `L2_address` objects by address
(`none` where nothing is allocated), the address the next `new` returns, the
addresses handed to `delete` so far (in order), and the cache pointer itself
(`none` for NULL). An address value is its list of bytes. -/
structure l2_state where
  heap : Nat → Option (List Nat)
  next_free : Nat
  deleted : List Nat
  m_p_l2_addr : Option Nat

/-- The method `delete_l2_address`: `if (m_p_l2_addr) delete m_p_l2_addr;`
then `m_p_l2_addr = NULL;`. -/
def delete_l2_address (s : l2_state) : l2_state :=
  match s.m_p_l2_addr with
  | some p =>
    { s with
      heap := fun a => if a = p then none else s.heap a
      deleted := s.deleted ++ [p]
      m_p_l2_addr := none }
  | none => { s with m_p_l2_addr := none }

/-- Modelled from the spec: `L2_address::clone` is not under src/; it returns a
newly allocated copy of the object at `p` (the spec's "replace" stores a copy
owned by the ring). Reading an object that is not live has no defined result
(`none`). -/
def L2_address_clone (s : l2_state) (p : Nat) : Option (Nat × l2_state) :=
  match s.heap p with
  | none => none
  | some v =>
    some (s.next_free,
      { s with
        heap := fun a => if a = s.next_free then some v else s.heap a
        next_free := s.next_free + 1 })

/-- The method `save_l2_address`: `delete_l2_address();` then
`m_p_l2_addr = p_l2_addr->clone();`. -/
def save_l2_address (s : l2_state) (p_l2_addr : Nat) : Option l2_state :=
  match L2_address_clone (delete_l2_address s) p_l2_addr with
  | none => none
  | some (q, s1) => some { s1 with m_p_l2_addr := some q }

/-- A consistent address store: nothing is allocated at or above `next_free`,
and the cache, when not NULL, points at a live object. -/
def l2_wf (s : l2_state) : Prop :=
  (∀ a, s.next_free ≤ a → s.heap a = none) ∧
    ∀ p, s.m_p_l2_addr = some p → s.heap p ≠ none

/-- A store with one caller-owned address object at 0 and an empty cache. -/
def l2_init : l2_state :=
  { heap := fun a => if a = 0 then some [2, 0, 0, 0, 0, 1] else none
    next_free := 1
    deleted := []
    m_p_l2_addr := none }

/-! ## The two delivery lanes -/

/-- The failures of the buffer pool named by the spec. -/
inductive pool_error where
  | ResourceExhausted : pool_error
  | ConsistencyViolation : pool_error
deriving DecidableEq, Repr

/-- Modelled from the spec: the transmit buffer pool of section 4.1, with its
capacity (`m_tx_num_bufs`) and its borrowed count. The bodies of
`mem_buf_tx_get` and `mem_buf_tx_release` are not under src/ (only their
declarations and the members `m_tx_num_bufs`, `m_missing_buf_ref_count`). -/
structure tx_pool where
  m_tx_num_bufs : Nat
  borrowed : Int
deriving DecidableEq, Repr

/-- Modelled from the spec: `mem_buf_tx_get` is not under src/. "acquire(n,
blocking) -> sequence of BufferDescriptor | fails with ResourceExhausted" when
fewer than `n` are free; the pool state is then unchanged. With no other
caller returning buffers a blocking acquire ends in the same failure when its
wait times out. On success the `n` buffers become borrowed. -/
def mem_buf_tx_get (p : tx_pool) (b_block : Bool) (n_num_mem_bufs : Nat) :
    Except pool_error tx_pool :=
  if p.borrowed + n_num_mem_bufs ≤ p.m_tx_num_bufs then
    Except.ok { p with borrowed := p.borrowed + n_num_mem_bufs }
  else
    match b_block with
    | false => Except.error pool_error.ResourceExhausted
    | true => Except.error pool_error.ResourceExhausted

/-- The descriptors of a release list that go back to the pool: a release
decrements each reference count and reclaims "only descriptors whose reference
count reaches zero", i.e. those held by one reference. -/
def reclaimed (refs : List Nat) : Nat := (refs.filter (fun r => r = 1)).length

/-- Modelled from the spec: `mem_buf_tx_release` is not under src/. The list is
given by the reference counts of its descriptors. A descriptor whose count is
already zero, or a release of more buffers than are borrowed, is a
ConsistencyViolation ("must be detected, not silently tolerated"); otherwise
the reclaimed descriptors leave the borrowed count. -/
def mem_buf_tx_release (p : tx_pool) (refs : List Nat) : Except pool_error tx_pool :=
  if 0 ∈ refs then Except.error pool_error.ConsistencyViolation
  else if p.borrowed < reclaimed refs then Except.error pool_error.ConsistencyViolation
  else Except.ok { p with borrowed := p.borrowed - reclaimed refs }

/-- One call on the pool. -/
inductive pool_op where
  | get (b_block : Bool) (n : Nat) : pool_op
  | release (refs : List Nat) : pool_op
deriving DecidableEq, Repr

/-- The result of one call. -/
def pool_step (p : tx_pool) : pool_op → Except pool_error tx_pool
  | pool_op.get b n => mem_buf_tx_get p b n
  | pool_op.release refs => mem_buf_tx_release p refs

/-- The pool states met along a sequence of calls, the first included: a
failed acquire leaves the pool as it is and the sequence goes on, a
consistency violation is fatal and ends it. -/
def pool_states (p : tx_pool) : List pool_op → List tx_pool
  | [] => [p]
  | o :: os =>
    match pool_step p o with
    | Except.ok p1 => p :: pool_states p1 os
    | Except.error pool_error.ResourceExhausted => p :: pool_states p os
    | Except.error pool_error.ConsistencyViolation => [p]

/-- The mask as the specification words it: the bitwise OR of the flags
`NVME_CRC_TX`, `NVME_CRC_RX`, `NVME_ZEROCOPY`, taken over those of `crc_tx`,
`crc_rx`, `zerocopy` that are set. -/
def nvme_mask_spec (NVME_CRC_TX NVME_CRC_RX NVME_ZEROCOPY : Nat) (caps : nvmeotcp_caps_t) :
    Nat :=
  (if caps.crc_tx then NVME_CRC_TX else 0) ||| (if caps.crc_rx then NVME_CRC_RX else 0) |||
    (if caps.zerocopy then NVME_ZEROCOPY else 0)

/-! ## Packet completions of the batched delivery model -/

theorem set_next_next (m : Node → list_head) (p v n : Node) :
    (set_next m p v n).next = if n = p then v else (m n).next := by
  unfold set_next; split_ifs <;> rfl

theorem set_next_prev (m : Node → list_head) (p v n : Node) :
    (set_next m p v n).prev = (m n).prev := by
  unfold set_next; split_ifs with h
  · rw [h]
  · rfl

theorem set_prev_prev (m : Node → list_head) (p v n : Node) :
    (set_prev m p v n).prev = if n = p then v else (m n).prev := by
  unfold set_prev; split_ifs <;> rfl

theorem set_prev_next (m : Node → list_head) (p v n : Node) :
    (set_prev m p v n).next = (m n).next := by
  unfold set_prev; split_ifs with h
  · rw [h]
  · rfl

theorem list_add_tail_next (m : Node → list_head) (e : Nat) (n : Node) :
    (list_add_tail m (Node.ec e) Node.head n).next =
      if n = (m Node.head).prev then Node.ec e
      else if n = Node.ec e then Node.head else (m n).next := by
  simp only [list_add_tail, __list_add, set_next_next, set_prev_next]

theorem list_add_tail_prev (m : Node → list_head) (e : Nat) (n : Node) :
    (list_add_tail m (Node.ec e) Node.head n).prev =
      if n = Node.ec e then (m Node.head).prev
      else if n = Node.head then Node.ec e else (m n).prev := by
  simp only [list_add_tail, __list_add, set_next_prev, set_prev_prev]

theorem list_del_init_next (m : Node → list_head) (e n : Node) :
    (list_del_init m e n).next =
      if n = e then e else if n = (m e).prev then (m e).next else (m n).next := by
  simp only [list_del_init, INIT_LIST_HEAD, __list_del, set_next_next, set_prev_next]

theorem list_del_init_prev (m : Node → list_head) (e n : Node) :
    (list_del_init m e n).prev =
      if n = e then e else if n = (m e).next then (m e).prev else (m n).prev := by
  simp only [list_del_init, INIT_LIST_HEAD, __list_del, set_next_prev, set_prev_prev]

theorem list_head_ext (a b : list_head) (h1 : a.next = b.next) (h2 : a.prev = b.prev) :
    a = b := by
  cases a; cases b; simp_all

theorem Chain_congr (m m' : Node → list_head) :
    ∀ (l : List Nat) (a : Node), Chain m a l →
      (∀ n, (n = a ∨ ∃ x ∈ l, n = Node.ec x) → (m' n).next = (m n).next) →
      (∀ n, (n = Node.head ∨ ∃ x ∈ l, n = Node.ec x) → (m' n).prev = (m n).prev) →
      Chain m' a l := by
  intro l
  induction l with
  | nil =>
    intro a h hn hp
    refine ⟨?_, ?_⟩
    · rw [hn a (Or.inl rfl)]; exact h.1
    · rw [hp Node.head (Or.inl rfl)]; exact h.2
  | cons x xs ih =>
    intro a h hn hp
    refine ⟨?_, ?_, ?_⟩
    · rw [hn a (Or.inl rfl)]; exact h.1
    · rw [hp (Node.ec x) (Or.inr ⟨x, List.mem_cons_self x xs, rfl⟩)]; exact h.2.1
    · apply ih (Node.ec x) h.2.2
      · intro n hn1
        apply hn
        rcases hn1 with h1 | ⟨y, hy, h1⟩
        · exact Or.inr ⟨x, List.mem_cons_self x xs, h1⟩
        · exact Or.inr ⟨y, List.mem_cons_of_mem x hy, h1⟩
      · intro n hn1
        apply hp
        rcases hn1 with h1 | ⟨y, hy, h1⟩
        · exact Or.inl h1
        · exact Or.inr ⟨y, List.mem_cons_of_mem x hy, h1⟩

theorem Chain_last (m : Node → list_head) :
    ∀ (l : List Nat) (a : Node), Chain m a l →
      (m Node.head).prev = a ∨ ∃ x ∈ l, (m Node.head).prev = Node.ec x := by
  intro l
  induction l with
  | nil => intro a h; exact Or.inl h.2
  | cons x xs ih =>
    intro a h
    rcases ih (Node.ec x) h.2.2 with h1 | ⟨y, hy, h1⟩
    · exact Or.inr ⟨x, List.mem_cons_self x xs, h1⟩
    · exact Or.inr ⟨y, List.mem_cons_of_mem x hy, h1⟩

theorem Chain_prev_mem (m : Node → list_head) (e : Nat) :
    ∀ (l : List Nat) (a : Node), Chain m a l → e ∈ l →
      (m (Node.ec e)).prev = a ∨ ∃ y ∈ l, (m (Node.ec e)).prev = Node.ec y := by
  intro l
  induction l with
  | nil => intro a _ he; cases he
  | cons x xs ih =>
    intro a h he
    by_cases hx : e = x
    · subst hx; exact Or.inl h.2.1
    · have he1 : e ∈ xs := by
        rcases List.mem_cons.mp he with h1 | h1
        · exact absurd h1 hx
        · exact h1
      rcases ih (Node.ec x) h.2.2 he1 with h1 | ⟨y, hy, h1⟩
      · exact Or.inr ⟨x, List.mem_cons_self x xs, h1⟩
      · exact Or.inr ⟨y, List.mem_cons_of_mem x hy, h1⟩

theorem Chain_next_mem (m : Node → list_head) (e : Nat) :
    ∀ (l : List Nat) (a : Node), Chain m a l → e ∈ l →
      (m (Node.ec e)).next = Node.head ∨ ∃ y ∈ l, (m (Node.ec e)).next = Node.ec y := by
  intro l
  induction l with
  | nil => intro a _ he; cases he
  | cons x xs ih =>
    intro a h he
    by_cases hx : e = x
    · subst hx
      cases xs with
      | nil => exact Or.inl h.2.2.1
      | cons y ys =>
        exact Or.inr ⟨y, List.mem_cons_of_mem e (List.mem_cons_self y ys), h.2.2.1⟩
    · have he1 : e ∈ xs := by
        rcases List.mem_cons.mp he with h1 | h1
        · exact absurd h1 hx
        · exact h1
      rcases ih (Node.ec x) h.2.2 he1 with h1 | ⟨y, hy, h1⟩
      · exact Or.inl h1
      · exact Or.inr ⟨y, List.mem_cons_of_mem x hy, h1⟩

theorem Chain_add_tail (m : Node → list_head) (e : Nat) :
    ∀ (l : List Nat) (a : Node), Chain m a l → a ≠ Node.ec e → e ∉ l →
      (∀ x ∈ l, a ≠ Node.ec x) → l.Nodup →
      Chain (list_add_tail m (Node.ec e) Node.head) a (l ++ [e]) := by
  intro l
  induction l with
  | nil =>
    intro a h hae _ _ _
    have hp : (m Node.head).prev = a := h.2
    show _ ∧ _ ∧ _ ∧ _
    refine ⟨?_, ?_, ?_, ?_⟩
    · rw [list_add_tail_next, hp]; simp
    · rw [list_add_tail_prev, hp]; simp
    · rw [list_add_tail_next, hp]; simp [Ne.symm hae]
    · rw [list_add_tail_prev]; simp
  | cons x xs ih =>
    intro a h hae hel hal hnd
    have hex : e ≠ x := fun h1 => hel (h1 ▸ List.mem_cons_self _ _)
    have hexs : e ∉ xs := fun h1 => hel (List.mem_cons_of_mem x h1)
    have hxxs : x ∉ xs := (List.nodup_cons.mp hnd).1
    have hap : a ≠ (m Node.head).prev := by
      intro h1
      rcases Chain_last m xs (Node.ec x) h.2.2 with h2 | ⟨y, hy, h2⟩
      · exact hal x (List.mem_cons_self x xs) (h1.trans h2)
      · exact hal y (List.mem_cons_of_mem x hy) (h1.trans h2)
    show _ ∧ _ ∧ _
    refine ⟨?_, ?_, ?_⟩
    · rw [list_add_tail_next]; simp [hap, hae]; exact h.1
    · rw [list_add_tail_prev]
      have h1 : Node.ec x ≠ Node.ec e := fun h2 => hex (Node.ec.inj h2).symm
      simp [h1]; exact h.2.1
    · apply ih (Node.ec x) h.2.2
      · intro h2; exact hex (Node.ec.inj h2).symm
      · exact hexs
      · intro y hy h2; exact hxxs ((Node.ec.inj h2) ▸ hy)
      · exact (List.nodup_cons.mp hnd).2

theorem Chain_skip (m : Node → list_head) (e : Nat) (a : Node) :
    ∀ (xs : List Nat), Chain m (Node.ec e) xs → (m (Node.ec e)).prev = a →
      a ≠ Node.ec e → e ∉ xs → (∀ x ∈ xs, a ≠ Node.ec x) → xs.Nodup →
      Chain (list_del_init m (Node.ec e)) a xs := by
  intro xs h hp hae hexs hal hnd
  cases xs with
  | nil =>
    refine ⟨?_, ?_⟩
    · rw [list_del_init_next, hp]; simp [hae]; exact h.1
    · rw [list_del_init_prev, h.1]; simp [hp]
  | cons y ys =>
    have hey : e ≠ y := fun h1 => hexs (h1 ▸ List.mem_cons_self _ _)
    have hyys : y ∉ ys := (List.nodup_cons.mp hnd).1
    have hye : Node.ec y ≠ Node.ec e := fun h2 => hey (Node.ec.inj h2).symm
    refine ⟨?_, ?_, ?_⟩
    · rw [list_del_init_next, hp]; simp [hae]; exact h.1
    · rw [list_del_init_prev, h.1]; simp [hye, hp]
    · apply Chain_congr m _ ys (Node.ec y) h.2.2
      · intro n hn
        have hne : n ≠ Node.ec e := by
          rcases hn with h1 | ⟨z, hz, h1⟩
          · rw [h1]; exact hye
          · rw [h1]; intro h2
            exact hexs (List.mem_cons_of_mem y ((Node.ec.inj h2) ▸ hz))
        have hna : n ≠ a := by
          rcases hn with h1 | ⟨z, hz, h1⟩
          · rw [h1]; exact fun h2 => hal y (List.mem_cons_self y ys) h2.symm
          · rw [h1]; exact fun h2 => hal z (List.mem_cons_of_mem y hz) h2.symm
        rw [list_del_init_next, hp]; simp [hne, hna]
      · intro n hn
        have hne : n ≠ Node.ec e := by
          rcases hn with h1 | ⟨z, hz, h1⟩
          · rw [h1]; exact fun h2 => Node.noConfusion h2
          · rw [h1]; intro h2
            exact hexs (List.mem_cons_of_mem y ((Node.ec.inj h2) ▸ hz))
        have hny : n ≠ Node.ec y := by
          rcases hn with h1 | ⟨z, hz, h1⟩
          · rw [h1]; exact fun h2 => Node.noConfusion h2
          · rw [h1]; intro h2
            exact hyys ((Node.ec.inj h2) ▸ hz)
        rw [list_del_init_prev, h.1]; simp [hne, hny]

theorem Chain_del (m : Node → list_head) (e : Nat) :
    ∀ (l : List Nat) (a : Node), Chain m a l → a ≠ Node.ec e →
      (∀ x ∈ l, a ≠ Node.ec x) → l.Nodup → e ∈ l →
      Chain (list_del_init m (Node.ec e)) a (l.erase e) := by
  intro l
  induction l with
  | nil => intro a _ _ _ _ he; cases he
  | cons x xs ih =>
    intro a h hae hal hnd he
    have hxxs : x ∉ xs := (List.nodup_cons.mp hnd).1
    have hnd1 : xs.Nodup := (List.nodup_cons.mp hnd).2
    by_cases hx : x = e
    · subst hx
      rw [List.erase_cons_head]
      exact Chain_skip m x a xs h.2.2 h.2.1 hae hxxs
        (fun y hy => hal y (List.mem_cons_of_mem x hy)) hnd1
    · have he1 : e ∈ xs := by
        rcases List.mem_cons.mp he with h1 | h1
        · exact absurd h1.symm hx
        · exact h1
      have hxe : Node.ec x ≠ Node.ec e := fun h2 => hx (Node.ec.inj h2)
      rw [List.erase_cons_tail (by simpa using hx)]
      have hap : a ≠ (m (Node.ec e)).prev := by
        intro h1
        rcases Chain_prev_mem m e xs (Node.ec x) h.2.2 he1 with h2 | ⟨y, hy, h2⟩
        · exact hal x (List.mem_cons_self x xs) (h1.trans h2)
        · exact hal y (List.mem_cons_of_mem x hy) (h1.trans h2)
      have hxn : Node.ec x ≠ (m (Node.ec e)).next := by
        intro h1
        rcases Chain_next_mem m e xs (Node.ec x) h.2.2 he1 with h2 | ⟨y, hy, h2⟩
        · exact Node.noConfusion (h1.trans h2)
        · exact hxxs ((Node.ec.inj (h1.trans h2)) ▸ hy)
      refine ⟨?_, ?_, ?_⟩
      · rw [list_del_init_next]; simp [hae, hap]; exact h.1
      · rw [list_del_init_prev]; simp [hxe, hxn]; exact h.2.1
      · apply ih (Node.ec x) h.2.2 hxe
        · intro y hy h2; exact hxxs ((Node.ec.inj h2) ▸ hy)
        · exact hnd1
        · exact he1

theorem list_del_init_unlinked (m : Node → list_head) (e : Node)
    (h : m e = { next := e, prev := e }) : list_del_init m e = m := by
  have hn : (m e).next = e := by rw [h]
  have hp : (m e).prev = e := by rw [h]
  funext n
  apply list_head_ext
  · rw [list_del_init_next, hp, hn]
    by_cases h1 : n = e
    · simp [h1, hn]
    · simp [h1]
  · rw [list_del_init_prev, hp, hn]
    by_cases h1 : n = e
    · simp [h1, hp]
    · simp [h1]

theorem INIT_LIST_HEAD_del_init (m : Node → list_head) (e : Node) :
    INIT_LIST_HEAD (list_del_init m e) e = list_del_init m e := by
  funext n
  apply list_head_ext
  · simp only [INIT_LIST_HEAD, set_prev_next, set_next_next, list_del_init_next]
    by_cases h1 : n = e <;> simp [h1]
  · simp only [INIT_LIST_HEAD, set_prev_prev, set_next_prev, list_del_init_prev]
    by_cases h1 : n = e <;> simp [h1]

theorem Chain_next_ne_self (m : Node → list_head) (e : Nat) :
    ∀ (l : List Nat) (a : Node), Chain m a l → l.Nodup → e ∈ l →
      (m (Node.ec e)).next ≠ Node.ec e := by
  intro l
  induction l with
  | nil => intro a _ _ he; cases he
  | cons x xs ih =>
    intro a h hnd he
    have hxxs : x ∉ xs := (List.nodup_cons.mp hnd).1
    by_cases hx : e = x
    · subst hx
      cases xs with
      | nil => rw [h.2.2.1]; exact fun h2 => Node.noConfusion h2
      | cons y ys =>
        rw [h.2.2.1]
        intro h2
        exact hxxs ((Node.ec.inj h2) ▸ List.mem_cons_self y ys)
    · have he1 : e ∈ xs := by
        rcases List.mem_cons.mp he with h1 | h1
        · exact absurd h1 hx
        · exact h1
      exact ih (Node.ec x) h.2.2 (List.nodup_cons.mp hnd).2 he1

theorem Queue_unlinked_iff (s : ec_state) (l : List Nat) (e : Nat) (h : Queue s l) :
    unlinked s e ↔ e ∉ l := by
  constructor
  · intro hu he
    apply Chain_next_ne_self s.list e l Node.head h.1 h.2.1 he
    unfold unlinked at hu
    rw [hu]
  · intro he
    exact h.2.2 e he

theorem Queue_put (s : ec_state) (l : List Nat) (e : Nat) (h : Queue s l) (he : e ∉ l) :
    Queue (put_ec s e) (l ++ [e]) := by
  obtain ⟨hc, hnd, hun⟩ := h
  refine ⟨?_, ?_, ?_⟩
  · exact Chain_add_tail s.list e l Node.head hc (fun h2 => Node.noConfusion h2) he
      (fun x _ h2 => Node.noConfusion h2) hnd
  · rw [List.nodup_append]
    refine ⟨hnd, List.nodup_singleton e, ?_⟩
    intro x hx hx1
    rw [List.mem_singleton] at hx1
    exact he (hx1 ▸ hx)
  · intro f hf
    have hfl : f ∉ l := fun h1 => hf (List.mem_append_left _ h1)
    have hfe : f ≠ e := fun h1 => hf (h1 ▸ List.mem_append_right _ (List.mem_singleton_self f))
    have h1 : Node.ec f ≠ Node.ec e := fun h2 => hfe (Node.ec.inj h2)
    have h2 : Node.ec f ≠ (s.list Node.head).prev := by
      intro h3
      rcases Chain_last s.list l Node.head hc with h4 | ⟨y, hy, h4⟩
      · exact Node.noConfusion (h3.trans h4)
      · exact hfl ((Node.ec.inj (h3.trans h4)) ▸ hy)
    show list_add_tail s.list (Node.ec e) Node.head (Node.ec f) = _
    apply list_head_ext
    · rw [list_add_tail_next]; simp [h1, h2]; rw [hun f hfl]
    · rw [list_add_tail_prev]; simp [h1]; rw [hun f hfl]

theorem Queue_del_init (s : ec_state) (l : List Nat) (e : Nat) (h : Queue s l) :
    Queue { s with list := list_del_init s.list (Node.ec e) } (l.erase e) := by
  obtain ⟨hc, hnd, hun⟩ := h
  by_cases he : e ∈ l
  · refine ⟨?_, hnd.erase e, ?_⟩
    · exact Chain_del s.list e l Node.head hc (fun h2 => Node.noConfusion h2)
        (fun x _ h2 => Node.noConfusion h2) hnd he
    · intro f hf
      show list_del_init s.list (Node.ec e) (Node.ec f) = _
      by_cases hfe : f = e
      · subst hfe
        apply list_head_ext
        · rw [list_del_init_next]; simp
        · rw [list_del_init_prev]; simp
      · have hfl : f ∉ l := fun h1 => hf ((List.mem_erase_of_ne hfe).mpr h1)
        have h1 : Node.ec f ≠ Node.ec e := fun h2 => hfe (Node.ec.inj h2)
        have h2 : Node.ec f ≠ (s.list (Node.ec e)).prev := by
          intro h3
          rcases Chain_prev_mem s.list e l Node.head hc he with h4 | ⟨y, hy, h4⟩
          · exact Node.noConfusion (h3.trans h4)
          · exact hfl ((Node.ec.inj (h3.trans h4)) ▸ hy)
        have h3 : Node.ec f ≠ (s.list (Node.ec e)).next := by
          intro h3
          rcases Chain_next_mem s.list e l Node.head hc he with h4 | ⟨y, hy, h4⟩
          · exact Node.noConfusion (h3.trans h4)
          · exact hfl ((Node.ec.inj (h3.trans h4)) ▸ hy)
        apply list_head_ext
        · rw [list_del_init_next]; simp [h1, h2]; rw [hun f hfl]
        · rw [list_del_init_prev]; simp [h1, h3]; rw [hun f hfl]
  · rw [List.erase_of_not_mem he, list_del_init_unlinked s.list (Node.ec e) (hun e he)]
    exact ⟨hc, hnd, hun⟩

theorem del_ec_list (s : ec_state) (e : Nat) :
    (del_ec s e).list = list_del_init s.list (Node.ec e) := by
  show INIT_LIST_HEAD (list_del_init s.list (Node.ec e)) (Node.ec e) = _
  exact INIT_LIST_HEAD_del_init s.list (Node.ec e)

theorem Queue_del (s : ec_state) (l : List Nat) (e : Nat) (h : Queue s l) :
    Queue (del_ec s e) (l.erase e) := by
  have h1 := Queue_del_init s l e h
  unfold Queue at h1 ⊢
  rw [del_ec_list]
  exact h1

theorem get_ec_nil (s : ec_state) (h : Queue s []) : get_ec s = (none, s) := by
  have h1 : (s.list Node.head).next = Node.head := h.1.1
  simp [get_ec, list_empty, h1]

theorem get_ec_cons (s : ec_state) (x : Nat) (xs : List Nat) (h : Queue s (x :: xs)) :
    get_ec s = (some x, { s with list := list_del_init s.list (Node.ec x) }) := by
  have h1 : (s.list Node.head).next = Node.ec x := h.1.1
  simp [get_ec, list_empty, list_entry, h1]

theorem Queue_get_cons (s : ec_state) (x : Nat) (xs : List Nat) (h : Queue s (x :: xs)) :
    Queue (get_ec s).2 xs := by
  rw [get_ec_cons s x xs h]
  have h1 := Queue_del_init s (x :: xs) x h
  rw [List.erase_cons_head] at h1
  exact h1

theorem walk_Chain (m : Node → list_head) :
    ∀ (l : List Nat) (n : Nat) (a : Node), Chain m a l → walk m n a = l.take n := by
  intro l
  induction l with
  | nil =>
    intro n a h
    cases n with
    | zero => rfl
    | succ k =>
      have h1 : (m a).next = Node.head := h.1
      simp [walk, h1]
  | cons x xs ih =>
    intro n a h
    cases n with
    | zero => rfl
    | succ k =>
      have h1 : (m a).next = Node.ec x := h.1
      simp [walk, h1, ih k (Node.ec x) h.2.2]

theorem ec_list_entries_Queue (s : ec_state) (l : List Nat) (n : Nat) (h : Queue s l) :
    ec_list_entries n s = l.take n :=
  walk_Chain s.list l n Node.head h.1

theorem Queue_init : Queue ec_init [] := by
  refine ⟨⟨rfl, rfl⟩, List.nodup_nil, ?_⟩
  intro e _
  rfl

theorem Queue_run :
    ∀ (ops : List ec_op) (s : ec_state) (l : List Nat), Queue s l → puts_unlinked s ops →
      ∃ l', Queue (ec_run s ops) l' := by
  intro ops
  induction ops with
  | nil => intro s l h _; exact ⟨l, h⟩
  | cons o os ih =>
    intro s l h hg
    cases o with
    | put e =>
      have hg1 : unlinked s e ∧ puts_unlinked (put_ec s e) os = true := by
        simpa [puts_unlinked] using hg
      have he : e ∉ l := (Queue_unlinked_iff s l e h).mp hg1.1
      exact ih (put_ec s e) (l ++ [e]) (Queue_put s l e h he) hg1.2
    | del e =>
      exact ih (del_ec s e) (l.erase e) (Queue_del s l e h) hg
    | get =>
      cases l with
      | nil =>
        have h1 : ec_step s ec_op.get = s := by
          show (get_ec s).2 = s
          rw [get_ec_nil s h]
        have hg1 : puts_unlinked (ec_step s ec_op.get) os = true := hg
        show ∃ l', Queue (ec_run (ec_step s ec_op.get) os) l'
        rw [h1] at hg1 ⊢
        exact ih s [] h hg1
      | cons x xs =>
        exact ih (get_ec s).2 xs (Queue_get_cons s x xs h) hg

/-- C2 (counterexample): entry 0 is queued with event bitmap 1 and consumer
identity 42; `get_ec` returns it with its link reset but its fields are not
zeroed: the bitmap is still 1 and the identity still 42. -/
theorem C2_get_ec_keeps_fields :
    (get_ec (put_ec { ec_init with
      completion := fun i => if i = 0 then { zero_completion with events := 1, user_data := 42 }
        else zero_completion } 0)).1 = some 0 ∧
    ((get_ec (put_ec { ec_init with
      completion := fun i => if i = 0 then { zero_completion with events := 1, user_data := 42 }
        else zero_completion } 0)).2.completion 0).events = 1 ∧
    ((get_ec (put_ec { ec_init with
      completion := fun i => if i = 0 then { zero_completion with events := 1, user_data := 42 }
        else zero_completion } 0)).2.completion 0) ≠ zero_completion := by
  refine ⟨by decide, by decide, by decide⟩

/-- C2 (amended): `del_ec` leaves the removed entry cleared (link reset to the
unlinked state, completion zeroed, `last_buff_lst` NULL), so an entry put again
after `del_ec` shows no earlier data; `get_ec` resets the link of the entry it
returns and leaves the fields of every entry as they were. -/
theorem C2_removal_resets_entry (s : ec_state) (e : Nat) :
    (unlinked (del_ec s e) e ∧ (del_ec s e).completion e = zero_completion ∧
      (del_ec s e).last_buff_lst e = none ∧
      (put_ec (del_ec s e) e).completion e = zero_completion ∧
      (put_ec (del_ec s e) e).last_buff_lst e = none) ∧
    (∀ i, (get_ec s).1 = some i → unlinked (get_ec s).2 i) ∧
    (get_ec s).2.completion = s.completion ∧
    (get_ec s).2.last_buff_lst = s.last_buff_lst := by
  have hd : unlinked (del_ec s e) e := by
    unfold unlinked
    rw [del_ec_list]
    apply list_head_ext
    · rw [list_del_init_next]; simp
    · rw [list_del_init_prev]; simp
  have hc : (del_ec s e).completion e = zero_completion := by
    simp [del_ec, ring_ec_clear]
  have hb : (del_ec s e).last_buff_lst e = none := by
    simp [del_ec, ring_ec_clear]
  refine ⟨⟨hd, hc, hb, hc, hb⟩, ?_, ?_, ?_⟩
  · intro i hi
    cases hn : (s.list Node.head).next with
    | head =>
      simp [get_ec, list_empty, hn] at hi
    | ec k =>
      simp only [get_ec, list_empty, list_entry, hn] at hi ⊢
      simp only [Option.some.injEq, reduceCtorEq, decide_False, Bool.not_false, if_true] at hi ⊢
      subst hi
      simp only [unlinked]
      apply list_head_ext
      · rw [list_del_init_next]; simp
      · rw [list_del_init_prev]; simp
  · cases hn : (s.list Node.head).next <;> simp [get_ec, list_empty, list_entry, hn]
  · cases hn : (s.list Node.head).next <;> simp [get_ec, list_empty, list_entry, hn]

/-- C3 (counterexample): from the empty queue, `put_ec` of entry 0 twice leaves
a list whose walk meets entry 0 again and again: entry 0 occurs twice among
the first two entries of `ec_list`, and two `get_ec` calls both return it. -/
theorem C3_put_twice_duplicates :
    ec_list_entries 2 (ec_run ec_init [ec_op.put 0, ec_op.put 0]) = [0, 0] ∧
    ¬ (ec_list_entries 2 (ec_run ec_init [ec_op.put 0, ec_op.put 0])).Nodup ∧
    (drain 2 (ec_run ec_init [ec_op.put 0, ec_op.put 0])).1 = [0, 0] := by
  refine ⟨by decide, by decide, by decide⟩

/-- C3 (amended): in every state reached from an empty queue by a sequence of
`put_ec`, `del_ec` and `get_ec` calls in which each `put_ec` is made on an
entry that is unlinked at that moment, `ec_list` is a well-formed list `l`
without repetition: no entry (no socket) occurs twice, however far the list is
walked. -/
theorem C3_one_record_per_entry (s0 : ec_state) (ops : List ec_op)
    (h0 : Queue s0 []) (hg : puts_unlinked s0 ops = true) :
    ∃ l, Queue (ec_run s0 ops) l ∧ l.Nodup ∧
      ∀ n, ec_list_entries n (ec_run s0 ops) = l.take n ∧
        (ec_list_entries n (ec_run s0 ops)).Nodup := by
  obtain ⟨l, hl⟩ := Queue_run ops s0 [] h0 hg
  refine ⟨l, hl, hl.2.1, ?_⟩
  intro n
  rw [ec_list_entries_Queue _ l n hl]
  exact ⟨rfl, hl.2.1.sublist (List.take_sublist n l)⟩

/-- Witness of C3: put 1, put 2, get, put 1 again (it is unlinked again), del 2
leaves the queue holding entry 1 once. -/
theorem C3_one_record_per_entry_witness :
    Queue ec_init [] ∧
    puts_unlinked ec_init
      [ec_op.put 1, ec_op.put 2, ec_op.get, ec_op.put 1, ec_op.del 2] = true ∧
    ∃ l, Queue (ec_run ec_init
        [ec_op.put 1, ec_op.put 2, ec_op.get, ec_op.put 1, ec_op.del 2]) l ∧ l.Nodup ∧
      ∀ n, ec_list_entries n (ec_run ec_init
          [ec_op.put 1, ec_op.put 2, ec_op.get, ec_op.put 1, ec_op.del 2]) = l.take n ∧
        (ec_list_entries n (ec_run ec_init
          [ec_op.put 1, ec_op.put 2, ec_op.get, ec_op.put 1, ec_op.del 2])).Nodup :=
  ⟨Queue_init, by decide,
    C3_one_record_per_entry ec_init
      [ec_op.put 1, ec_op.put 2, ec_op.get, ec_op.put 1, ec_op.del 2] Queue_init (by decide)⟩

/-- C4 (counterexample): five of the nine listed mutations return without
polling the transmit completion queue: `tls_resync_rx`, `tls_release_tis`,
`tls_release_tir`, `nvme_set_static_context` and `nvme_set_progress_context`
make zero calls of `poll_and_process_element_tx`. -/
theorem C4_mutations_without_poll :
    polls (tls_release_tis
      { m_tls := { tls_tx := true, tls_rx := true, tls_synchronize_dek := true },
        m_tx_lkey := 0, n_tx_tls_contexts := 1, n_rx_tls_contexts := 0 } 7).trace = 0 ∧
    polls (tls_release_tir
      { m_tls := { tls_tx := true, tls_rx := true, tls_synchronize_dek := true },
        m_tx_lkey := 0, n_tx_tls_contexts := 0, n_rx_tls_contexts := 1 } 7).trace = 0 ∧
    polls (tls_resync_rx
      { m_tls := { tls_tx := true, tls_rx := true, tls_synchronize_dek := true },
        m_tx_lkey := 0, n_tx_tls_contexts := 0, n_rx_tls_contexts := 1 } 7 3 100).trace = 0 ∧
    polls (nvme_set_static_context
      { m_tls := { tls_tx := true, tls_rx := true, tls_synchronize_dek := true },
        m_tx_lkey := 0, n_tx_tls_contexts := 0, n_rx_tls_contexts := 0 } 7 5).trace = 0 ∧
    polls (nvme_set_progress_context
      { m_tls := { tls_tx := true, tls_rx := true, tls_synchronize_dek := true },
        m_tx_lkey := 0, n_tx_tls_contexts := 0, n_rx_tls_contexts := 0 } 7 5).trace = 0 := by
  refine ⟨by decide, by decide, by decide, by decide, by decide⟩

/-- C4 (amended): `tls_context_setup_tx`, `tls_context_setup_rx`,
`tls_context_resync_tx` and `tls_get_progress_params_rx` poll the transmit
completion queue exactly once, right after their queue pair call and before
the lock is dropped, whatever the queue pair answered (success or failure);
`tls_resync_rx`, `tls_release_tis`, `tls_release_tir`,
`nvme_set_static_context` and `nvme_set_progress_context` do not poll. -/
theorem C4_poll_after_mutation (K : Nat) (r : Ring) :
    (∀ info q, polls (tls_context_setup_tx r info q).trace = 1 ∧
      (tls_context_setup_tx r info q).trace =
        [Ev.lock_ring_tx, Ev.qp (qp_call.tls_context_setup_tx info), Ev.cq_tx_poll,
          Ev.unlock_ring_tx]) ∧
    (∀ t i n cb a rc, polls (tls_context_setup_rx r t i n cb a rc).trace = 1 ∧
      (tls_context_setup_rx r t i n cb a rc).trace =
        [Ev.lock_ring_tx, Ev.qp (qp_call.tls_context_setup_rx t i n cb a), Ev.cq_tx_poll,
          Ev.unlock_ring_tx]) ∧
    (∀ i t sk, polls (tls_context_resync_tx r i t sk).trace = 1 ∧
      (tls_context_resync_tx r i t sk).trace =
        [Ev.lock_ring_tx, Ev.qp (qp_call.tls_context_resync_tx i t sk), Ev.cq_tx_poll,
          Ev.unlock_ring_tx]) ∧
    (∀ t b l, polls (tls_get_progress_params_rx K r t b l).trace = 1 ∧
      ∃ key, (tls_get_progress_params_rx K r t b l).trace =
        [Ev.lock_ring_tx, Ev.qp (qp_call.tls_get_progress_params_rx t b key), Ev.cq_tx_poll,
          Ev.unlock_ring_tx]) ∧
    (∀ t i h, polls (tls_resync_rx r t i h).trace = 0) ∧
    (∀ t, polls (tls_release_tis r t).trace = 0) ∧
    (∀ t, polls (tls_release_tir r t).trace = 0) ∧
    (∀ t c, polls (nvme_set_static_context r t c).trace = 0) ∧
    (∀ t n, polls (nvme_set_progress_context r t n).trace = 0) := by
  refine ⟨?_, ?_, ?_, ?_, ?_, ?_, ?_, ?_, ?_⟩
  · intro info q; exact ⟨by simp [polls, tls_context_setup_tx], rfl⟩
  · intro t i n cb a rc; exact ⟨by simp [polls, tls_context_setup_rx], rfl⟩
  · intro i t sk; exact ⟨by simp [polls, tls_context_resync_tx], rfl⟩
  · intro t b l; exact ⟨by simp [polls, tls_get_progress_params_rx], _, rfl⟩
  · intro t i h; simp [polls, tls_resync_rx]
  · intro t; simp [polls, tls_release_tis]
  · intro t; simp [polls, tls_release_tir]
  · intro t c; simp [polls, nvme_set_static_context]
  · intro t n; simp [polls, nvme_set_progress_context]

/-- C5 (counterexample): on a ring whose flag `m_tls.tls_tx` is false,
`tls_context_setup_tx` still returns the context the queue pair hands back and
counts it: the method does not consult the flag. -/
theorem C5_setup_tx_ignores_flag :
    (tls_tx_supported
      { m_tls := { tls_tx := false, tls_rx := false, tls_synchronize_dek := false },
        m_tx_lkey := 0, n_tx_tls_contexts := 0, n_rx_tls_contexts := 0 }).ret = false ∧
    (tls_context_setup_tx
      { m_tls := { tls_tx := false, tls_rx := false, tls_synchronize_dek := false },
        m_tx_lkey := 0, n_tx_tls_contexts := 0, n_rx_tls_contexts := 0 } 1 (some 9)).ret
      = some 9 ∧
    (tls_context_setup_tx
      { m_tls := { tls_tx := false, tls_rx := false, tls_synchronize_dek := false },
        m_tx_lkey := 0, n_tx_tls_contexts := 0, n_rx_tls_contexts := 0 } 1
        (some 9)).ring.n_tx_tls_contexts = 1 := by
  refine ⟨by decide, by decide, by decide⟩

/-- C5 (amended): `tls_context_setup_tx` returns exactly what the queue pair's
`tls_context_setup_tx` returns, whatever the flag `m_tls.tls_tx`; when the
queue pair returns no context the method returns NULL and leaves the ring,
its counter `n_tx_tls_contexts` included, unchanged; when the queue pair
returns a context the counter grows by one. -/
theorem C5_setup_tx_follows_queue_pair (r : Ring) (info : Nat) :
    (∀ q, (tls_context_setup_tx r info q).ret = q) ∧
    (tls_context_setup_tx r info none).ret = none ∧
    (tls_context_setup_tx r info none).ring = r ∧
    (∀ t, (tls_context_setup_tx r info (some t)).ring.n_tx_tls_contexts
      = r.n_tx_tls_contexts + 1) ∧
    (∀ q caps, (tls_context_setup_tx { r with m_tls := caps } info q).ret
      = (tls_context_setup_tx r info q).ret ∧
      (tls_context_setup_tx { r with m_tls := caps } info q).ring.n_tx_tls_contexts
      = (tls_context_setup_tx r info q).ring.n_tx_tls_contexts) := by
  refine ⟨fun q => rfl, rfl, rfl, fun t => rfl, ?_⟩
  intro q caps
  cases q <;> exact ⟨rfl, rfl⟩

/-- C6 (counterexample): `get_supported_nvme_feature_mask` (taken with the flag
values 1, 2, 4) asks the adapter on every call: the call appears in its trace,
and two queries on the same ring return 1 and 0 when the hardware reports
differently in between. -/
theorem C6_nvme_mask_queries_hardware :
    (get_supported_nvme_feature_mask 1 2 4
      { m_tls := { tls_tx := true, tls_rx := true, tls_synchronize_dek := true },
        m_tx_lkey := 0, n_tx_tls_contexts := 0, n_rx_tls_contexts := 0 }
      (some { dpcp_ok := true, nvmeotcp_caps :=
        { enabled := true, zerocopy := false, crc_rx := false, crc_tx := true } })).ret = 1 ∧
    (get_supported_nvme_feature_mask 1 2 4
      { m_tls := { tls_tx := true, tls_rx := true, tls_synchronize_dek := true },
        m_tx_lkey := 0, n_tx_tls_contexts := 0, n_rx_tls_contexts := 0 }
      (some { dpcp_ok := true, nvmeotcp_caps :=
        { enabled := false, zerocopy := false, crc_rx := false, crc_tx := true } })).ret = 0 ∧
    (get_supported_nvme_feature_mask 1 2 4
      { m_tls := { tls_tx := true, tls_rx := true, tls_synchronize_dek := true },
        m_tx_lkey := 0, n_tx_tls_contexts := 0, n_rx_tls_contexts := 0 }
      (some { dpcp_ok := true, nvmeotcp_caps :=
        { enabled := true, zerocopy := false, crc_rx := false, crc_tx := true } })).trace
      = [Ev.get_hca_capabilities] := by
  refine ⟨by decide, by decide, by decide⟩

/-- C6 (amended): the three TLS queries `tls_tx_supported`, `tls_rx_supported`
and `tls_sync_dek_supported` return the flag stored in `m_tls`, call no
collaborator and change nothing, and no offload entry point changes `m_tls`,
so two such queries on a ring agree whatever happens in between;
`get_supported_nvme_feature_mask` instead depends only on what the adapter
answers at the call (not on the ring), and calls `get_hca_capabilities` each
time an adapter is present. -/
theorem C6_capability_queries (K A B C : Nat) (r : Ring) :
    ((tls_tx_supported r).ret = r.m_tls.tls_tx ∧ (tls_tx_supported r).trace = [] ∧
      (tls_tx_supported r).ring = r) ∧
    ((tls_rx_supported r).ret = r.m_tls.tls_rx ∧ (tls_rx_supported r).trace = [] ∧
      (tls_rx_supported r).ring = r) ∧
    ((tls_sync_dek_supported r).ret = r.m_tls.tls_synchronize_dek ∧
      (tls_sync_dek_supported r).trace = [] ∧ (tls_sync_dek_supported r).ring = r) ∧
    (∀ op, (offload_run K r op).1.m_tls = r.m_tls ∧
      (tls_tx_supported (offload_run K r op).1).ret = (tls_tx_supported r).ret ∧
      (tls_rx_supported (offload_run K r op).1).ret = (tls_rx_supported r).ret ∧
      (tls_sync_dek_supported (offload_run K r op).1).ret = (tls_sync_dek_supported r).ret) ∧
    (∀ a, (get_supported_nvme_feature_mask A B C r a).ring = r) ∧
    (∀ a r', (get_supported_nvme_feature_mask A B C r' a).ret
      = (get_supported_nvme_feature_mask A B C r a).ret) ∧
    (∀ rep, (get_supported_nvme_feature_mask A B C r (some rep)).trace
      = [Ev.get_hca_capabilities]) ∧
    (get_supported_nvme_feature_mask A B C r none).trace = [] ∧
    (get_supported_nvme_feature_mask A B C r none).ret = 0 := by
  have hm : ∀ op, (offload_run K r op).1.m_tls = r.m_tls := by
    intro op
    cases op with
    | tls_context_setup_tx info q => cases q <;> rfl
    | tls_context_setup_rx t i n cb a q =>
      show (tls_context_setup_rx r t i n cb a q).ring.m_tls = r.m_tls
      unfold tls_context_setup_rx
      by_cases h : q = 0 <;> simp [h]
    | _ => rfl
  refine ⟨⟨rfl, rfl, rfl⟩, ⟨rfl, rfl, rfl⟩, ⟨rfl, rfl, rfl⟩, ?_, ?_, ?_, ?_, rfl, rfl⟩
  · intro op
    refine ⟨hm op, ?_, ?_, ?_⟩
    · simp [tls_tx_supported, hm op]
    · simp [tls_rx_supported, hm op]
    · simp [tls_sync_dek_supported, hm op]
  · intro a; cases a <;> rfl
  · intro a r'; cases a <;> rfl
  · intro rep; rfl

theorem offload_run_Bracketed (K : Nat) (r : Ring) (op : offload_op) :
    Bracketed (offload_run K r op).2 := by
  cases op <;>
    first
    | exact ⟨[_], rfl, by simp⟩
    | exact ⟨[_, _], rfl, by simp⟩

theorem inside_no_lock :
    ∀ (l : List Ev) (b : Bool), (∀ e ∈ l, e ≠ Ev.lock_ring_tx ∧ e ≠ Ev.unlock_ring_tx) →
      inside b l = b := by
  intro l
  induction l with
  | nil => intro b _; rfl
  | cons e es ih =>
    intro b h
    have he := h e (List.mem_cons_self e es)
    have hes := ih b (fun x hx => h x (List.mem_cons_of_mem e hx))
    cases e with
    | lock_ring_tx => exact absurd rfl he.1
    | unlock_ring_tx => exact absurd rfl he.2
    | qp c => simpa [inside] using hes
    | cq_tx_poll => simpa [inside] using hes
    | get_hca_capabilities => simpa [inside] using hes

theorem inside_append :
    ∀ (l1 l2 : List Ev) (b : Bool), inside b (l1 ++ l2) = inside (inside b l1) l2 := by
  intro l1
  induction l1 with
  | nil => intro l2 b; rfl
  | cons e es ih =>
    intro l2 b
    cases e <;> simp [inside, ih]

theorem inside_Bracketed (t : List Ev) (b : Bool) (h : Bracketed t) : inside b t = false := by
  obtain ⟨mid, rfl, hmid⟩ := h
  show inside true (mid ++ [Ev.unlock_ring_tx]) = false
  rw [inside_append, inside_no_lock mid true hmid]
  rfl

theorem inside_Bracketed_before_qp (t P Q : List Ev) (c : qp_call) (h : Bracketed t)
    (hs : t = P ++ Ev.qp c :: Q) (b : Bool) : inside b P = true := by
  obtain ⟨mid, rfl, hmid⟩ := h
  cases P with
  | nil => simp at hs
  | cons x P1 =>
    simp only [List.cons_append, List.cons.injEq] at hs
    obtain ⟨hx, hs1⟩ := hs
    subst hx
    show inside true P1 = true
    apply inside_no_lock
    intro e he
    apply hmid
    rcases List.append_eq_append_iff.mp hs1 with ⟨a, _, h2⟩ | ⟨a, h1, _⟩
    · cases a with
      | nil =>
        simp at h2
      | cons y ys =>
        simp only [List.cons_append, List.cons.injEq] at h2
        have h4 : (ys ++ Ev.qp c :: Q).length = 0 := by rw [← h2.2]; rfl
        simp at h4
    · rw [h1]; exact List.mem_append_left _ he

theorem thread_trace_inside (K : Nat) :
    ∀ (calls : List (Ring × offload_op)) (P Q : List Ev) (c : qp_call),
      thread_trace K calls = P ++ Ev.qp c :: Q → inside false P = true := by
  intro calls
  induction calls with
  | nil => intro P Q c h; simp [thread_trace] at h
  | cons rc rest ih =>
    intro P Q c h
    obtain ⟨r, op⟩ := rc
    have hb := offload_run_Bracketed K r op
    simp only [thread_trace] at h
    rcases List.append_eq_append_iff.mp h with ⟨a, h1, h2⟩ | ⟨a, h1, h2⟩
    · rw [h1, inside_append, inside_Bracketed _ false hb]
      exact ih a Q c h2
    · cases a with
      | nil =>
        simp only [List.nil_append] at h2
        simp only [List.append_nil] at h1
        rw [← h1, inside_Bracketed _ false hb]
        exact ih [] Q c h2.symm
      | cons y ys =>
        simp only [List.cons_append, List.cons.injEq] at h2
        rw [← h2.1] at h1
        exact inside_Bracketed_before_qp _ P ys c hb h1 false

theorem proj_append (t : Nat) :
    ∀ (a b : List (Nat × Ev)), proj t (a ++ b) = proj t a ++ proj t b := by
  intro a
  induction a with
  | nil => intro b; rfl
  | cons x xs ih =>
    intro b
    obtain ⟨u, e⟩ := x
    by_cases hu : u = t <;> simp [proj, hu, ih]

theorem holder_append :
    ∀ (a b : List (Nat × Ev)) (h : Option Nat),
      holder h (a ++ b) = (holder h a).bind (fun h1 => holder h1 b) := by
  intro a
  induction a with
  | nil => intro b h; rfl
  | cons x xs ih =>
    intro b h
    obtain ⟨u, e⟩ := x
    simp only [List.cons_append, holder]
    cases lock_step h u e with
    | none => rfl
    | some h1 => exact ih b h1

theorem holder_inside :
    ∀ (σ : List (Nat × Ev)) (h h1 : Option Nat) (b : Nat → Bool),
      (∀ t, b t = true ↔ h = some t) → holder h σ = some h1 →
      ∀ t, inside (b t) (proj t σ) = true ↔ h1 = some t := by
  intro σ
  induction σ with
  | nil =>
    intro h h1 b hb hh t
    simp only [holder, Option.some.injEq] at hh
    subst hh
    exact hb t
  | cons x xs ih =>
    intro h h1 b hb hh t
    obtain ⟨u, e⟩ := x
    simp only [holder] at hh
    cases hl : lock_step h u e with
    | none => rw [hl] at hh; cases hh
    | some h2 =>
      rw [hl] at hh
      cases e with
      | lock_ring_tx =>
        simp only [lock_step] at hl
        by_cases hn : h = none
        · simp only [hn, if_true, Option.some.injEq] at hl
          subst hl
          have hb2 : ∀ v, (if v = u then true else b v) = true ↔ some u = some v := by
            intro v
            by_cases hv : v = u
            · simp [hv]
            · have : b v = false := by
                cases hbv : b v with
                | false => rfl
                | true => rw [hn] at hb; exact absurd ((hb v).mp hbv) (by simp)
              simp [hv, this, Ne.symm hv]
          have := ih (some u) h1 (fun v => if v = u then true else b v) hb2 hh t
          by_cases hut : u = t
          · simpa [proj, hut, inside] using this
          · simpa [proj, hut, Ne.symm hut] using this
        · simp [hn] at hl
      | unlock_ring_tx =>
        simp only [lock_step] at hl
        by_cases hn : h = some u
        · simp only [hn, if_true, Option.some.injEq] at hl
          subst hl
          have hb2 : ∀ v, (if v = u then false else b v) = true ↔ (none : Option Nat) = some v := by
            intro v
            by_cases hv : v = u
            · simp [hv]
            · have : b v = false := by
                cases hbv : b v with
                | false => rfl
                | true =>
                  rw [hn] at hb
                  have h3 := (hb v).mp hbv
                  simp only [Option.some.injEq] at h3
                  exact absurd h3.symm hv
              simp [hv, this]
          have := ih none h1 (fun v => if v = u then false else b v) hb2 hh t
          by_cases hut : u = t
          · simpa [proj, hut, inside] using this
          · simpa [proj, hut, Ne.symm hut] using this
        · simp [hn] at hl
      | qp c =>
        simp only [lock_step, Option.some.injEq] at hl
        subst hl
        have := ih h h1 b hb hh t
        by_cases hut : u = t <;> simpa [proj, hut, inside] using this
      | cq_tx_poll =>
        simp only [lock_step, Option.some.injEq] at hl
        subst hl
        have := ih h h1 b hb hh t
        by_cases hut : u = t <;> simpa [proj, hut, inside] using this
      | get_hca_capabilities =>
        simp only [lock_step, Option.some.injEq] at hl
        subst hl
        have := ih h h1 b hb hh t
        by_cases hut : u = t <;> simpa [proj, hut, inside] using this

theorem prog0_sched0 (t : Nat) : proj t sched0 = thread_trace 0 (prog0 t) := by
  rcases t with _ | _ | n
  · rfl
  · rfl
  · simp [proj, sched0, prog0, thread_trace]

/-- C7: every listed entry point (`tls_context_setup_tx`, `tls_create_tir`,
`tls_context_setup_rx`, `tls_context_resync_tx`, `tls_resync_rx`,
`tls_get_progress_params_rx`, `tls_release_tis`, `tls_release_tir`,
`tls_tx_post_dump_wqe`, `create_tis`, `nvme_set_static_context`,
`nvme_set_progress_context`, `post_dump_wqe`) takes `m_lock_ring_tx` first,
drops it last, and makes all its queue pair calls in between. Hence in every
interleaving of threads calling these entry points that respects the lock,
whenever a thread calls into the queue pair it owns the lock and no other
thread is between taking and dropping it: no post sees another call's context
half-way. -/
theorem C7_tx_lock_brackets_queue_pair_calls (K : Nat) (σ : List (Nat × Ev))
    (prog : Nat → List (Ring × offload_op)) (hfin : Option Nat)
    (hvalid : holder none σ = some hfin)
    (hprog : ∀ t, proj t σ = thread_trace K (prog t)) :
    (∀ r op, ∃ mid,
      (offload_run K r op).2 = Ev.lock_ring_tx :: (mid ++ [Ev.unlock_ring_tx]) ∧
      (∀ e ∈ mid, e ≠ Ev.lock_ring_tx ∧ e ≠ Ev.unlock_ring_tx) ∧
      (∃ c, Ev.qp c ∈ mid) ∧
      (∀ c, Ev.qp c ∈ (offload_run K r op).2 → Ev.qp c ∈ mid)) ∧
    (∀ pre post t c, σ = pre ++ (t, Ev.qp c) :: post →
      holder none pre = some (some t) ∧
      ∀ u, u ≠ t → inside false (proj u pre) = false) := by
  constructor
  · intro r op
    cases op <;>
      first
      | exact ⟨[_], rfl, by simp, ⟨_, List.mem_singleton_self _⟩, by
          intro c hc
          simp only [offload_run] at hc
          simpa [tls_create_tir, tls_resync_rx, tls_release_tis, tls_release_tir,
            tls_tx_post_dump_wqe, create_tis, nvme_set_static_context,
            nvme_set_progress_context, post_dump_wqe] using hc⟩
      | exact ⟨[_, _], rfl, by simp, ⟨_, List.mem_cons_self _ _⟩, by
          intro c hc
          simp only [offload_run] at hc
          simpa [tls_context_setup_tx, tls_context_setup_rx, tls_context_resync_tx,
            tls_get_progress_params_rx] using hc⟩
  · intro pre post t c hσ
    have hp : proj t σ = proj t pre ++ Ev.qp c :: proj t post := by
      rw [hσ, proj_append]
      simp [proj]
    have hin : inside false (proj t pre) = true :=
      thread_trace_inside K (prog t) (proj t pre) (proj t post) c ((hprog t).symm.trans hp)
    have hh : ∃ h1, holder none pre = some h1 := by
      rw [hσ, holder_append] at hvalid
      cases hpre : holder none pre with
      | none => rw [hpre] at hvalid; cases hvalid
      | some h1 => exact ⟨h1, rfl⟩
    obtain ⟨h1, hpre⟩ := hh
    have hinv := holder_inside pre none h1 (fun _ => false) (by simp) hpre
    have ht : h1 = some t := (hinv t).mp hin
    refine ⟨by rw [hpre, ht], ?_⟩
    intro u hu
    cases hiu : inside false (proj u pre) with
    | false => rfl
    | true =>
      have h2 := (hinv u).mp hiu
      rw [ht] at h2
      exact absurd (Option.some.inj h2).symm hu

/-- Witness of C7: thread 0 sets up a transmit context, then thread 1 posts a
dump work request; when thread 1 reaches the queue pair it owns the lock and
thread 0 is outside its call. -/
theorem C7_tx_lock_brackets_queue_pair_calls_witness :
    holder none sched0 = some none ∧
    (∀ t, proj t sched0 = thread_trace 0 (prog0 t)) ∧
    holder none [(0, Ev.lock_ring_tx), (0, Ev.qp (qp_call.tls_context_setup_tx 1)),
      (0, Ev.cq_tx_poll), (0, Ev.unlock_ring_tx), (1, Ev.lock_ring_tx)] = some (some 1) ∧
    inside false (proj 0 [(0, Ev.lock_ring_tx), (0, Ev.qp (qp_call.tls_context_setup_tx 1)),
      (0, Ev.cq_tx_poll), (0, Ev.unlock_ring_tx), (1, Ev.lock_ring_tx)]) = false :=
  ⟨by decide, prog0_sched0,
    ((C7_tx_lock_brackets_queue_pair_calls 0 sched0 prog0 none (by decide) prog0_sched0).2
      [(0, Ev.lock_ring_tx), (0, Ev.qp (qp_call.tls_context_setup_tx 1)),
        (0, Ev.cq_tx_poll), (0, Ev.unlock_ring_tx), (1, Ev.lock_ring_tx)]
      [(1, Ev.unlock_ring_tx)] 1 (qp_call.post_dump_wqe 9 100 64 5 true) rfl).1,
    ((C7_tx_lock_brackets_queue_pair_calls 0 sched0 prog0 none (by decide) prog0_sched0).2
      [(0, Ev.lock_ring_tx), (0, Ev.qp (qp_call.tls_context_setup_tx 1)),
        (0, Ev.cq_tx_poll), (0, Ev.unlock_ring_tx), (1, Ev.lock_ring_tx)]
      [(1, Ev.unlock_ring_tx)] 1 (qp_call.post_dump_wqe 9 100 64 5 true) rfl).2 0
      (by decide)⟩

theorem l2_live_lt (s : l2_state) (a : Nat) (hwf : l2_wf s) (ha : s.heap a ≠ none) :
    a < s.next_free := by
  by_contra h
  exact ha (hwf.1 a (Nat.le_of_not_lt h))

theorem delete_l2_address_heap (s : l2_state) (a : Nat) (h : s.m_p_l2_addr ≠ some a) :
    (delete_l2_address s).heap a = s.heap a := by
  unfold delete_l2_address
  cases hs : s.m_p_l2_addr with
  | none => rfl
  | some p =>
    have hap : a ≠ p := fun h1 => h (by rw [hs, h1])
    simp [hap]

theorem delete_l2_address_deleted (s : l2_state) :
    (delete_l2_address s).deleted = s.deleted ++ s.m_p_l2_addr.toList := by
  unfold delete_l2_address
  cases hs : s.m_p_l2_addr with
  | none => simp
  | some p => simp

theorem delete_l2_address_ptr (s : l2_state) : (delete_l2_address s).m_p_l2_addr = none := by
  unfold delete_l2_address
  cases hs : s.m_p_l2_addr <;> rfl

theorem delete_l2_address_next_free (s : l2_state) :
    (delete_l2_address s).next_free = s.next_free := by
  unfold delete_l2_address
  cases hs : s.m_p_l2_addr <;> rfl

theorem delete_l2_address_of_null (s : l2_state) (h : s.m_p_l2_addr = none) :
    delete_l2_address s = s := by
  cases s with
  | mk heap next_free deleted ptr =>
    simp only at h
    subst h
    rfl

theorem delete_l2_address_disposed (s : l2_state) (p : Nat) (h : s.m_p_l2_addr = some p) :
    (delete_l2_address s).heap p = none := by
  unfold delete_l2_address
  rw [h]
  simp

theorem delete_l2_address_heap_none (s : l2_state) (a : Nat) (h : s.heap a = none) :
    (delete_l2_address s).heap a = none := by
  unfold delete_l2_address
  cases hs : s.m_p_l2_addr with
  | none => exact h
  | some p =>
    by_cases hap : a = p
    · simp [hap]
    · simp [hap, h]

/-- C8: the link-layer address cache follows replace-and-free-previous. For
every consistent store, and every live address object `a` other than the
cached one, `save_l2_address(a)` hands the previously cached object (if any) to
`delete` exactly once and nothing else, and leaves the cache pointing at a
newly allocated object (not `a`) holding the same value as `a`, with `a`
itself untouched; `delete_l2_address` leaves the cache NULL, deletes the cached
object at most once, and a second call (or a call on an empty cache) changes
nothing and deletes nothing. -/
theorem C8_l2_address_replace (s : l2_state) (a : Nat) (v : List Nat)
    (hwf : l2_wf s) (ha : s.heap a = some v) (hne : s.m_p_l2_addr ≠ some a) :
    (∃ s1 q, save_l2_address s a = some s1 ∧
      s1.deleted = s.deleted ++ s.m_p_l2_addr.toList ∧
      s1.m_p_l2_addr = some q ∧ q ≠ a ∧ s1.heap q = some v ∧ s.heap q = none ∧
      s1.heap a = some v ∧
      (∀ p, s.m_p_l2_addr = some p → s1.heap p = none) ∧
      l2_wf s1) ∧
    ((delete_l2_address s).m_p_l2_addr = none ∧
      (delete_l2_address s).deleted = s.deleted ++ s.m_p_l2_addr.toList ∧
      delete_l2_address (delete_l2_address s) = delete_l2_address s ∧
      (delete_l2_address (delete_l2_address s)).deleted = (delete_l2_address s).deleted ∧
      (s.m_p_l2_addr = none → delete_l2_address s = s)) := by
  have hd : (delete_l2_address s).heap a = some v := by
    rw [delete_l2_address_heap s a hne]; exact ha
  have halt : a < s.next_free := l2_live_lt s a hwf (by rw [ha]; simp)
  have hqa : s.next_free ≠ a := Nat.ne_of_gt halt
  have hidem : delete_l2_address (delete_l2_address s) = delete_l2_address s :=
    delete_l2_address_of_null _ (delete_l2_address_ptr s)
  have hsave : ∃ s1, save_l2_address s a = some s1 ∧
      (∀ x, s1.heap x = if x = s.next_free then some v else (delete_l2_address s).heap x) ∧
      s1.next_free = s.next_free + 1 ∧ s1.deleted = (delete_l2_address s).deleted ∧
      s1.m_p_l2_addr = some s.next_free := by
    refine ⟨l2_state.mk
        (fun x => if x = s.next_free then some v else (delete_l2_address s).heap x)
        (s.next_free + 1) (delete_l2_address s).deleted (some s.next_free), ?_, ?_, ?_, ?_, ?_⟩
    · simp only [save_l2_address, L2_address_clone, hd, delete_l2_address_next_free]
    · intro x; rfl
    · rfl
    · rfl
    · rfl
  obtain ⟨s1, hs1, hheap, hnf, hdel, hptr⟩ := hsave
  constructor
  · refine ⟨s1, s.next_free, hs1, ?_, hptr, hqa, ?_, ?_, ?_, ?_, ?_⟩
    · rw [hdel]; exact delete_l2_address_deleted s
    · rw [hheap]; simp
    · exact hwf.1 _ (Nat.le_refl _)
    · rw [hheap]; simp [Ne.symm hqa, hd]
    · intro p hp
      have hpl : p < s.next_free := l2_live_lt s p hwf (hwf.2 p hp)
      rw [hheap]
      simp [Nat.ne_of_lt hpl, delete_l2_address_disposed s p hp]
    · constructor
      · intro x hx
        have hx1 : s.next_free < x := by omega
        rw [hheap]
        simp [Nat.ne_of_gt hx1,
          delete_l2_address_heap_none s x (hwf.1 x (Nat.le_of_lt hx1))]
      · intro p hp
        rw [hptr] at hp
        simp only [Option.some.injEq] at hp
        subst hp
        rw [hheap]
        simp
  · exact ⟨delete_l2_address_ptr s, delete_l2_address_deleted s, hidem, by rw [hidem],
      delete_l2_address_of_null s⟩

/-- Witness of C8: the cache already holds a copy (at address 1) of the
caller's address object 0; saving object 0 again deletes the copy at 1 once
and caches a new copy at address 2. -/
theorem C8_l2_address_replace_witness :
    (∃ s0, save_l2_address l2_init 0 = some s0 ∧ l2_wf s0 ∧
      s0.heap 0 = some [2, 0, 0, 0, 0, 1] ∧ s0.m_p_l2_addr ≠ some 0 ∧
      ∃ s1 q, save_l2_address s0 0 = some s1 ∧
        s1.deleted = s0.deleted ++ s0.m_p_l2_addr.toList ∧
        s1.m_p_l2_addr = some q ∧ q ≠ 0 ∧ s1.heap q = some [2, 0, 0, 0, 0, 1]) := by
  have hwf0 : l2_wf l2_init := by
    constructor
    · intro x hx
      have hx1 : 1 ≤ x := hx
      have hx2 : x ≠ 0 := by omega
      simp [l2_init, hx2]
    · intro p hp
      simp [l2_init] at hp
  have h0 := (C8_l2_address_replace l2_init 0 [2, 0, 0, 0, 0, 1] hwf0 rfl (by simp [l2_init])).1
  obtain ⟨s0, q0, hs0, _, hq0, hq0a, _, _, ha0, _, hwf1⟩ := h0
  have hne : s0.m_p_l2_addr ≠ some 0 := by
    rw [hq0]; intro h; exact hq0a (Option.some.inj h)
  obtain ⟨s1, q, h1, h2, h3, h4, h5, _⟩ :=
    (C8_l2_address_replace s0 0 [2, 0, 0, 0, 0, 1] hwf1 ha0 hne).1
  exact ⟨s0, hs0, hwf1, ha0, hne, s1, q, h1, h2, h3, h4, h5⟩

theorem pool_step_inv (p p1 : tx_pool) (op : pool_op)
    (h : 0 ≤ p.borrowed ∧ p.borrowed ≤ p.m_tx_num_bufs)
    (hs : pool_step p op = Except.ok p1) :
    (0 ≤ p1.borrowed ∧ p1.borrowed ≤ p1.m_tx_num_bufs) ∧ p1.m_tx_num_bufs = p.m_tx_num_bufs := by
  cases op with
  | get b n =>
    simp only [pool_step, mem_buf_tx_get] at hs
    split_ifs at hs with h1
    · simp only [Except.ok.injEq] at hs
      subst hs
      obtain ⟨ha, hb⟩ := h
      refine ⟨⟨?_, ?_⟩, rfl⟩
      · show (0 : Int) ≤ p.borrowed + (n : Int)
        omega
      · show p.borrowed + (n : Int) ≤ (p.m_tx_num_bufs : Int)
        exact h1
    · cases b <;> simp at hs
  | release refs =>
    simp only [pool_step, mem_buf_tx_release] at hs
    split_ifs at hs with h1 h2
    simp only [Except.ok.injEq] at hs
    subst hs
    obtain ⟨ha, hb⟩ := h
    refine ⟨⟨?_, ?_⟩, rfl⟩
    · show (0 : Int) ≤ p.borrowed - (reclaimed refs : Int)
      omega
    · show p.borrowed - (reclaimed refs : Int) ≤ (p.m_tx_num_bufs : Int)
      omega

theorem pool_states_inv :
    ∀ (ops : List pool_op) (p : tx_pool), 0 ≤ p.borrowed ∧ p.borrowed ≤ p.m_tx_num_bufs →
      ∀ q ∈ pool_states p ops,
        (0 ≤ q.borrowed ∧ q.borrowed ≤ q.m_tx_num_bufs) ∧ q.m_tx_num_bufs = p.m_tx_num_bufs := by
  intro ops
  induction ops with
  | nil =>
    intro p h q hq
    simp only [pool_states, List.mem_singleton] at hq
    subst hq
    exact ⟨h, rfl⟩
  | cons o os ih =>
    intro p h q hq
    simp only [pool_states] at hq
    cases hs : pool_step p o with
    | ok p1 =>
      rw [hs] at hq
      have h1 := pool_step_inv p p1 o h hs
      rcases List.mem_cons.mp hq with h2 | h2
      · subst h2; exact ⟨h, rfl⟩
      · have h3 := ih p1 h1.1 q h2
        exact ⟨h3.1, h3.2.trans h1.2⟩
    | error err =>
      rw [hs] at hq
      cases err with
      | ResourceExhausted =>
        rcases List.mem_cons.mp hq with h2 | h2
        · subst h2; exact ⟨h, rfl⟩
        · exact ih p h q h2
      | ConsistencyViolation =>
        simp only [List.mem_singleton] at hq
        subst hq
        exact ⟨h, rfl⟩

/-- C10: for every sequence of `mem_buf_tx_get` and `mem_buf_tx_release` calls
on a pool that starts within bounds, the borrowed count of every state met
stays between zero and the capacity `m_tx_num_bufs`; a release of more
buffers than are borrowed is reported as a ConsistencyViolation and an acquire
beyond the capacity as ResourceExhausted, neither changing the pool. -/
theorem C10_pool_borrowed_bounds (p : tx_pool) (ops : List pool_op)
    (h0 : 0 ≤ p.borrowed) (h1 : p.borrowed ≤ p.m_tx_num_bufs) :
    (∀ q ∈ pool_states p ops,
      0 ≤ q.borrowed ∧ q.borrowed ≤ q.m_tx_num_bufs ∧ q.m_tx_num_bufs = p.m_tx_num_bufs) ∧
    (∀ refs, p.borrowed < reclaimed refs →
      mem_buf_tx_release p refs = Except.error pool_error.ConsistencyViolation) ∧
    (∀ (b : Bool) (n : Nat), (p.m_tx_num_bufs : Int) < p.borrowed + (n : Int) →
      mem_buf_tx_get p b n = Except.error pool_error.ResourceExhausted) := by
  refine ⟨?_, ?_, ?_⟩
  · intro q hq
    have h := pool_states_inv ops p ⟨h0, h1⟩ q hq
    exact ⟨h.1.1, h.1.2, h.2⟩
  · intro refs hr
    unfold mem_buf_tx_release
    split_ifs <;> rfl
  · intro b n hn
    unfold mem_buf_tx_get
    have h2 : ¬ (p.borrowed + n ≤ p.m_tx_num_bufs) := by omega
    rw [if_neg h2]
    cases b <;> rfl

/-- Witness of C10: a pool of four buffers; three are acquired, an acquire of
two more fails, two are released, and a release of two more than the one still
borrowed is detected and ends the run. -/
theorem C10_pool_borrowed_bounds_witness :
    pool_states { m_tx_num_bufs := 4, borrowed := 0 }
        [pool_op.get false 3, pool_op.get false 2, pool_op.release [1, 1],
          pool_op.release [1, 1]]
      = [{ m_tx_num_bufs := 4, borrowed := 0 }, { m_tx_num_bufs := 4, borrowed := 3 },
          { m_tx_num_bufs := 4, borrowed := 3 }, { m_tx_num_bufs := 4, borrowed := 1 }] ∧
    ∀ q ∈ pool_states { m_tx_num_bufs := 4, borrowed := 0 }
        [pool_op.get false 3, pool_op.get false 2, pool_op.release [1, 1],
          pool_op.release [1, 1]],
      0 ≤ q.borrowed ∧ q.borrowed ≤ q.m_tx_num_bufs ∧ q.m_tx_num_bufs = 4 :=
  ⟨by decide,
    (C10_pool_borrowed_bounds { m_tx_num_bufs := 4, borrowed := 0 }
      [pool_op.get false 3, pool_op.get false 2, pool_op.release [1, 1],
        pool_op.release [1, 1]] (by decide) (by decide)).1⟩

theorem or3_absorb (A B C x y z : Nat) (hx : x = 0 ∨ x = A) (hy : y = 0 ∨ y = B)
    (hz : z = 0 ∨ z = C) : (x ||| y ||| z) ||| (A ||| B ||| C) = A ||| B ||| C := by
  apply Nat.eq_of_testBit_eq
  intro i
  rcases hx with h | h <;> rcases hy with h2 | h2 <;> rcases hz with h3 | h3 <;>
    rw [h, h2, h3] <;>
    simp only [Nat.testBit_or, Nat.zero_testBit] <;>
    generalize Nat.testBit A i = a <;> generalize Nat.testBit B i = b <;>
    generalize Nat.testBit C i = c <;>
    cases a <;> cases b <;> cases c <;> rfl

theorem flag_in_or3 (A x y z : Nat) (hx : x = 0 ∨ x = A)
    (hy : y &&& A = 0) (hz : z &&& A = 0) :
    ((x ||| y ||| z) &&& A = A ↔ x = A) := by
  have h1 : (x ||| y ||| z) &&& A = x &&& A := by
    rw [Nat.and_comm, Nat.and_or_distrib_left, Nat.and_or_distrib_left, Nat.and_comm A y,
      Nat.and_comm A z, hy, hz, Nat.or_zero, Nat.or_zero, Nat.and_comm]
  rw [h1]
  rcases hx with h | h
  · rw [h, Nat.zero_and]
  · rw [h, Nat.and_self]

theorem nvme_mask_enabled (A B C : Nat) (r : Ring) (caps : nvmeotcp_caps_t)
    (he : caps.enabled = true) :
    (get_supported_nvme_feature_mask A B C r
      (some { dpcp_ok := true, nvmeotcp_caps := caps })).ret = nvme_mask_spec A B C caps := by
  simp only [get_supported_nvme_feature_mask, nvme_mask_spec, he, bit]
  cases caps.crc_tx <;> cases caps.crc_rx <;> cases caps.zerocopy <;> simp

/-- C13: `get_supported_nvme_feature_mask` returns 0 when the adapter is absent,
when `get_hca_capabilities` does not return `DPCP_OK`, or when
`nvmeotcp_caps.enabled` is false; otherwise it returns exactly the bitwise OR
of `NVME_CRC_TX`, `NVME_CRC_RX`, `NVME_ZEROCOPY` over those of `crc_tx`,
`crc_rx`, `zerocopy` that are set. For flag values that are non-zero and
pairwise disjoint, each flag is in the mask if and only if its capability bit
is set, and the mask has no bit outside the three flags. -/
theorem C13_nvme_feature_mask (A B C : Nat) (r : Ring)
    (hA : A ≠ 0) (hB : B ≠ 0) (hC : C ≠ 0)
    (hAB : A &&& B = 0) (hAC : A &&& C = 0) (hBC : B &&& C = 0) :
    (get_supported_nvme_feature_mask A B C r none).ret = 0 ∧
    (∀ caps, (get_supported_nvme_feature_mask A B C r
      (some { dpcp_ok := false, nvmeotcp_caps := caps })).ret = 0) ∧
    (∀ ok caps, caps.enabled = false → (get_supported_nvme_feature_mask A B C r
      (some { dpcp_ok := ok, nvmeotcp_caps := caps })).ret = 0) ∧
    (∀ caps, caps.enabled = true →
      (get_supported_nvme_feature_mask A B C r
        (some { dpcp_ok := true, nvmeotcp_caps := caps })).ret = nvme_mask_spec A B C caps ∧
      ((get_supported_nvme_feature_mask A B C r
        (some { dpcp_ok := true, nvmeotcp_caps := caps })).ret &&& A = A ↔ caps.crc_tx = true) ∧
      ((get_supported_nvme_feature_mask A B C r
        (some { dpcp_ok := true, nvmeotcp_caps := caps })).ret &&& B = B ↔ caps.crc_rx = true) ∧
      ((get_supported_nvme_feature_mask A B C r
        (some { dpcp_ok := true, nvmeotcp_caps := caps })).ret &&& C = C ↔
          caps.zerocopy = true) ∧
      (get_supported_nvme_feature_mask A B C r
        (some { dpcp_ok := true, nvmeotcp_caps := caps })).ret ||| (A ||| B ||| C)
          = A ||| B ||| C) := by
  refine ⟨rfl, fun caps => rfl, ?_, ?_⟩
  · intro ok caps he
    simp [get_supported_nvme_feature_mask, he]
  · intro caps he
    rw [nvme_mask_enabled A B C r caps he]
    have hx : (if caps.crc_tx then A else 0) = 0 ∨ (if caps.crc_tx then A else 0) = A := by
      cases caps.crc_tx <;> simp
    have hy : (if caps.crc_rx then B else 0) = 0 ∨ (if caps.crc_rx then B else 0) = B := by
      cases caps.crc_rx <;> simp
    have hz : (if caps.zerocopy then C else 0) = 0 ∨ (if caps.zerocopy then C else 0) = C := by
      cases caps.zerocopy <;> simp
    have hBA : B &&& A = 0 := by rw [Nat.and_comm]; exact hAB
    have hCA : C &&& A = 0 := by rw [Nat.and_comm]; exact hAC
    have hCB : C &&& B = 0 := by rw [Nat.and_comm]; exact hBC
    have dis : ∀ (b : Bool) (X Y : Nat), X &&& Y = 0 → (if b then X else 0) &&& Y = 0 := by
      intro b X Y h
      cases b <;> simp [h]
    have act : ∀ (b : Bool) (X : Nat), X ≠ 0 → ((if b then X else 0) = X ↔ b = true) := by
      intro b X h
      cases b
      · simp [Ne.symm h]
      · simp
    refine ⟨rfl, ?_, ?_, ?_, ?_⟩
    · unfold nvme_mask_spec
      rw [flag_in_or3 A _ _ _ hx (dis _ B A hBA) (dis _ C A hCA)]
      exact act _ A hA
    · unfold nvme_mask_spec
      rw [Nat.or_comm (if caps.crc_tx then A else 0), flag_in_or3 B _ _ _ hy (dis _ A B hAB)
        (dis _ C B hCB)]
      exact act _ B hB
    · unfold nvme_mask_spec
      rw [Nat.or_comm, ← Nat.or_assoc, flag_in_or3 C _ _ _ hz (dis _ A C hAC) (dis _ B C hBC)]
      exact act _ C hC
    · exact or3_absorb A B C _ _ _ hx hy hz

/-- Witness of C13: with the flag values 1, 2, 4 and an adapter reporting
`crc_tx` and `zerocopy` but not `crc_rx`, the mask is 5. -/
theorem C13_nvme_feature_mask_witness :
    (1 : Nat) ≠ 0 ∧ (2 : Nat) ≠ 0 ∧ (4 : Nat) ≠ 0 ∧
    (1 : Nat) &&& 2 = 0 ∧ (1 : Nat) &&& 4 = 0 ∧ (2 : Nat) &&& 4 = 0 ∧
    (get_supported_nvme_feature_mask 1 2 4 ring0
      (some { dpcp_ok := true, nvmeotcp_caps :=
        { enabled := true, zerocopy := true, crc_rx := false, crc_tx := true } })).ret
      = nvme_mask_spec 1 2 4
        { enabled := true, zerocopy := true, crc_rx := false, crc_tx := true } ∧
    nvme_mask_spec 1 2 4
      { enabled := true, zerocopy := true, crc_rx := false, crc_tx := true } = 5 :=
  ⟨by decide, by decide, by decide, by decide, by decide, by decide,
    ((C13_nvme_feature_mask 1 2 4 ring0 (by decide) (by decide) (by decide) (by decide)
      (by decide) (by decide)).2.2.2
        { enabled := true, zerocopy := true, crc_rx := false, crc_tx := true } rfl).1,
    by decide⟩

/-- C14: in `tls_get_progress_params_rx` and `tls_tx_post_dump_wqe` the key
handed to the queue pair is the ring's `m_tx_lkey` when the caller passes
`LKEY_USE_DEFAULT` and the caller's key for every other value; the context,
address, length and first flag are forwarded unchanged, and the ring
(`m_tx_lkey` included) is not modified. -/
theorem C14_lkey_default_substitution (K : Nat) (r : Ring) :
    (∀ tir buf, (tls_get_progress_params_rx K r tir buf K).trace =
      [Ev.lock_ring_tx, Ev.qp (qp_call.tls_get_progress_params_rx tir buf r.m_tx_lkey),
        Ev.cq_tx_poll, Ev.unlock_ring_tx]) ∧
    (∀ tir buf lkey, lkey ≠ K → (tls_get_progress_params_rx K r tir buf lkey).trace =
      [Ev.lock_ring_tx, Ev.qp (qp_call.tls_get_progress_params_rx tir buf lkey),
        Ev.cq_tx_poll, Ev.unlock_ring_tx]) ∧
    (∀ tir buf lkey, (tls_get_progress_params_rx K r tir buf lkey).ring = r) ∧
    (∀ tis addr len first, (tls_tx_post_dump_wqe K r tis addr len K first).trace =
      [Ev.lock_ring_tx, Ev.qp (qp_call.tls_tx_post_dump_wqe tis addr len r.m_tx_lkey first),
        Ev.unlock_ring_tx]) ∧
    (∀ tis addr len lkey first, lkey ≠ K →
      (tls_tx_post_dump_wqe K r tis addr len lkey first).trace =
        [Ev.lock_ring_tx, Ev.qp (qp_call.tls_tx_post_dump_wqe tis addr len lkey first),
          Ev.unlock_ring_tx]) ∧
    (∀ tis addr len lkey first, (tls_tx_post_dump_wqe K r tis addr len lkey first).ring = r) := by
  refine ⟨?_, ?_, fun _ _ _ => rfl, ?_, ?_, fun _ _ _ _ _ => rfl⟩
  · intro tir buf
    simp [tls_get_progress_params_rx]
  · intro tir buf lkey h
    simp [tls_get_progress_params_rx, h]
  · intro tis addr len first
    simp [tls_tx_post_dump_wqe]
  · intro tis addr len lkey first h
    simp [tls_tx_post_dump_wqe, h]

/-- C15: `get_ec` returns NULL if and only if the event-completion queue is
empty, and then leaves the state unchanged; on a non-empty queue it returns
the head entry and the queue afterwards is the previous queue without its
head: one entry shorter, the rest in the same order, no payload touched. -/
theorem C15_get_ec_head_or_null (s : ec_state) (l : List Nat) (hq : Queue s l) :
    ((get_ec s).1 = none ↔ l = []) ∧
    ((get_ec s).1 = none ↔ list_empty s.list Node.head = true) ∧
    ((get_ec s).1 = none → (get_ec s).2 = s) ∧
    (∀ x xs, l = x :: xs →
      (get_ec s).1 = some x ∧ Queue (get_ec s).2 xs ∧ xs.length + 1 = l.length ∧
      (∀ n, ec_list_entries n (get_ec s).2 = xs.take n) ∧
      (get_ec s).2.completion = s.completion) := by
  have hcons : ∀ x xs, l = x :: xs →
      (get_ec s).1 = some x ∧ Queue (get_ec s).2 xs ∧ xs.length + 1 = l.length ∧
      (∀ n, ec_list_entries n (get_ec s).2 = xs.take n) ∧
      (get_ec s).2.completion = s.completion := by
    intro x xs hl
    subst hl
    have hq1 := Queue_get_cons s x xs hq
    refine ⟨by rw [get_ec_cons s x xs hq], hq1, rfl, ?_, by rw [get_ec_cons s x xs hq]⟩
    intro n
    exact ec_list_entries_Queue _ xs n hq1
  refine ⟨?_, ?_, ?_, hcons⟩
  · constructor
    · intro h
      cases l with
      | nil => rfl
      | cons x xs =>
        rw [(hcons x xs rfl).1] at h
        cases h
    · intro h
      subst h
      rw [get_ec_nil s hq]
  · cases l with
    | nil =>
      have h1 : (s.list Node.head).next = Node.head := hq.1.1
      rw [get_ec_nil s hq]
      simp [list_empty, h1]
    | cons x xs =>
      have h1 : (s.list Node.head).next = Node.ec x := hq.1.1
      rw [(hcons x xs rfl).1]
      simp [list_empty, h1]
  · intro h
    cases l with
    | nil => rw [get_ec_nil s hq]
    | cons x xs =>
      rw [(hcons x xs rfl).1] at h
      cases h

/-- Witness of C15: on the queue holding 5 then 3, `get_ec` returns entry 5 and
leaves the queue holding 3. -/
theorem C15_get_ec_head_or_null_witness :
    Queue (put_ec (put_ec ec_init 5) 3) [5, 3] ∧
    (get_ec (put_ec (put_ec ec_init 5) 3)).1 = some 5 ∧
    Queue (get_ec (put_ec (put_ec ec_init 5) 3)).2 [3] :=
  ⟨Queue_put (put_ec ec_init 5) [5] 3 (Queue_put ec_init [] 5 Queue_init (List.not_mem_nil 5))
      (by decide),
    ((C15_get_ec_head_or_null (put_ec (put_ec ec_init 5) 3) [5, 3]
      (Queue_put (put_ec ec_init 5) [5] 3
        (Queue_put ec_init [] 5 Queue_init (List.not_mem_nil 5)) (by decide))).2.2.2
      5 [3] rfl).1,
    ((C15_get_ec_head_or_null (put_ec (put_ec ec_init 5) 3) [5, 3]
      (Queue_put (put_ec ec_init 5) [5] 3
        (Queue_put ec_init [] 5 Queue_init (List.not_mem_nil 5)) (by decide))).2.2.2
      5 [3] rfl).2.1⟩

theorem del_ec_idem (s : ec_state) (e : Nat) : del_ec (del_ec s e) e = del_ec s e := by
  have hl : (del_ec (del_ec s e) e).list = (del_ec s e).list := by
    rw [del_ec_list (del_ec s e) e]
    apply list_del_init_unlinked
    rw [del_ec_list s e]
    apply list_head_ext
    · rw [list_del_init_next]; simp
    · rw [list_del_init_prev]; simp
  have hc : (del_ec (del_ec s e) e).completion = (del_ec s e).completion := by
    funext i
    simp only [del_ec, ring_ec_clear]
    split_ifs <;> rfl
  have hb : (del_ec (del_ec s e) e).last_buff_lst = (del_ec s e).last_buff_lst := by
    funext i
    simp only [del_ec, ring_ec_clear]
    split_ifs <;> rfl
  have hs : (del_ec (del_ec s e) e).slot = (del_ec s e).slot := rfl
  cases h1 : del_ec (del_ec s e) e with
  | mk l1 c1 b1 s1 =>
    cases h2 : del_ec s e with
    | mk l2 c2 b2 s2 =>
      rw [h1, h2] at hl hc hb hs
      simp only at hl hc hb hs
      rw [hl, hc, hb, hs]

/-- C16: `del_ec(e)` removes only `e`. For every queue state the queue after
`del_ec(e)` is the previous queue with `e` erased, every other entry in the
same relative order and with unchanged fields; when `e` is not queued (its
link is unlinked) the list is unchanged; and `del_ec(e)` twice yields the same
state as once. -/
theorem C16_del_ec_removes_only_e (s : ec_state) (l : List Nat) (e : Nat) (hq : Queue s l) :
    Queue (del_ec s e) (l.erase e) ∧
    (∀ n, ec_list_entries n (del_ec s e) = (l.erase e).take n) ∧
    l.erase e = l.filter (fun x => x != e) ∧
    (∀ i, i ≠ e → (del_ec s e).completion i = s.completion i ∧
      (del_ec s e).last_buff_lst i = s.last_buff_lst i) ∧
    (del_ec s e).slot = s.slot ∧
    (unlinked s e → (del_ec s e).list = s.list ∧ Queue (del_ec s e) l) ∧
    del_ec (del_ec s e) e = del_ec s e := by
  have h1 := Queue_del s l e hq
  refine ⟨h1, fun n => ec_list_entries_Queue _ _ n h1, hq.2.1.erase_eq_filter e, ?_, rfl, ?_,
    del_ec_idem s e⟩
  · intro i hi
    simp [del_ec, ring_ec_clear, hi]
  · intro hu
    have hl : (del_ec s e).list = s.list := by
      rw [del_ec_list]
      exact list_del_init_unlinked s.list (Node.ec e) hu
    refine ⟨hl, ?_⟩
    have he : e ∉ l := (Queue_unlinked_iff s l e hq).mp hu
    rw [List.erase_of_not_mem he] at h1
    exact h1

/-- Witness of C16: from the queue 5, 3, 7, `del_ec(3)` leaves 5, 7. -/
theorem C16_del_ec_removes_only_e_witness :
    Queue (put_ec (put_ec (put_ec ec_init 5) 3) 7) [5, 3, 7] ∧
    Queue (del_ec (put_ec (put_ec (put_ec ec_init 5) 3) 7) 3) [5, 7] ∧
    ec_list_entries 4 (del_ec (put_ec (put_ec (put_ec ec_init 5) 3) 7) 3) = [5, 7] :=
  ⟨Queue_put _ [5, 3] 7 (Queue_put _ [5] 3
      (Queue_put ec_init [] 5 Queue_init (List.not_mem_nil 5)) (by decide)) (by decide),
    (C16_del_ec_removes_only_e (put_ec (put_ec (put_ec ec_init 5) 3) 7) [5, 3, 7] 3
      (Queue_put _ [5, 3] 7 (Queue_put _ [5] 3
        (Queue_put ec_init [] 5 Queue_init (List.not_mem_nil 5)) (by decide)) (by decide))).1,
    by decide⟩

end ring_simple
